import Mathlib

/-!
Verification development for the `filter-lrclib` streaming filter
(`src/bin/filter.rs` of the lrc-db-builder repository).

The program makes a single streaming pass over a table of lyric records and,
per record, applies: a quality gate (line count and length), a codepoint-range
language classifier, a content-fingerprint dedup (MD5 over normalized lyric
text), and a metadata-identity dedup (normalized artist + track + duration
bucket, longer-lyrics-wins with supersession), writing survivors to an output
store and keeping five run counters.

Modelling conventions:
* Text is `List Char`; byte lengths use `Char.utf8Size`, matching Rust's
  `str::len`.
* Rust `f64` durations are modelled as `ℚ`.  For the duration values the
  program buckets (nonnegative decimal durations whose quotient by 10 is not
  adversarially close to a half-integer, in particular all integer-valued
  durations), `f64` division by 10 followed by `f64::round` agrees with exact
  rational round-half-away-from-zero, which is what we define.
* Rust `i64` record ids are modelled as `ℤ` and `u64` counters as `ℕ`
  (they are bounded by the record count, far from overflow); the `kept`
  counter, which is also decremented, is modelled as `ℤ` so that the
  decrement-then-increment of the supersession path is exact.
* Unicode-dependent character classes of the regex engine (`\w`, `\s`, `\d`)
  and case folding are given as explicit decidable approximations covering the
  script ranges this corpus and classifier exercise; each is documented at its
  definition.
* The SQLite stores are modelled as lists of rows: INSERT appends, DELETE
  filters by id.  The transactional batching (BEGIN/COMMIT) has no observable
  effect on final contents and is not modelled.
-/

namespace LrcFilter

/-! ## Character classes of the language classifier (filter.rs lines 30-45) -/

/-- Japanese scripts: Hiragana (U+3040..U+309F) and Katakana (U+30A0..U+30FF),
exactly the two ranges tested at filter.rs line 32. -/
def isJaCp (n : ℕ) : Bool :=
  decide (0x3040 ≤ n ∧ n ≤ 0x309F) || decide (0x30A0 ≤ n ∧ n ≤ 0x30FF)

/-- Korean script: Hangul syllables (U+AC00..U+D7AF), filter.rs line 35. -/
def isKoCp (n : ℕ) : Bool :=
  decide (0xAC00 ≤ n ∧ n ≤ 0xD7AF)

/-- Latin script: ASCII letters and Latin-1/Extended (U+00C0..U+024F),
filter.rs lines 38-39. -/
def isLatinCp (n : ℕ) : Bool :=
  decide (0x41 ≤ n ∧ n ≤ 0x5A) || decide (0x61 ≤ n ∧ n ≤ 0x7A) ||
    decide (0xC0 ≤ n ∧ n ≤ 0x24F)

/-- Excluded scripts: Arabic, Cyrillic, Devanagari, Thai, filter.rs
lines 41-42. -/
def isExclCp (n : ℕ) : Bool :=
  decide (0x600 ≤ n ∧ n ≤ 0x6FF) || decide (0x400 ≤ n ∧ n ≤ 0x4FF) ||
    decide (0x900 ≤ n ∧ n ≤ 0x97F) || decide (0xE00 ≤ n ∧ n ≤ 0xE7F)

/-- UTF-8 byte length of a character list; models Rust's `str::len` (byte
length) used by the classifier's 30-byte floor and the 100-byte quality
floor. -/
def utf8Len (l : List Char) : ℕ :=
  l.foldr (fun c a => c.utf8Size + a) 0

/-- The three language tags the program can assign; models the static strings
"ja", "ko", "en" of filter.rs. -/
inductive Lang : Type where
  | ja : Lang
  | ko : Lang
  | en : Lang
deriving DecidableEq

/-- The character scan loop of `classify_lang` (filter.rs lines 29-49): one
pass with four counters and early returns the moment Japanese or Korean
reaches 10 or the excluded count exceeds 50, then the end-of-scan decision. -/
def classifyLoop : List Char → ℕ → ℕ → ℕ → ℕ → Option Lang
  | [], _, _, latin, exclude =>
    if exclude > 50 ∧ exclude > latin then none
    else if latin ≥ 30 then some Lang.en
    else none
  | c :: rest, ja, ko, latin, exclude =>
    if isJaCp c.toNat then
      if ja + 1 ≥ 10 then some Lang.ja else classifyLoop rest (ja + 1) ko latin exclude
    else if isKoCp c.toNat then
      if ko + 1 ≥ 10 then some Lang.ko else classifyLoop rest ja (ko + 1) latin exclude
    else if isLatinCp c.toNat then
      classifyLoop rest ja ko (latin + 1) exclude
    else if isExclCp c.toNat then
      if exclude + 1 > 50 then none else classifyLoop rest ja ko latin (exclude + 1)
    else
      classifyLoop rest ja ko latin exclude

/-- `classify_lang` (filter.rs lines 22-50): `None` below the 30-byte floor,
otherwise the scan loop starting from four zero counters. -/
def classify_lang (text_no_ts : List Char) : Option Lang :=
  if utf8Len text_no_ts < 30 then none
  else classifyLoop text_no_ts 0 0 0 0

/-- Count of Japanese-script characters in a text. -/
def countJa (l : List Char) : ℕ := l.countP (fun c => isJaCp c.toNat)

/-- Count of Korean-script characters in a text. -/
def countKo (l : List Char) : ℕ := l.countP (fun c => isKoCp c.toNat)

/-- Count of Latin-script characters in a text. -/
def countLatin (l : List Char) : ℕ := l.countP (fun c => isLatinCp c.toNat)

/-- Count of excluded-script characters in a text. -/
def countExcl (l : List Char) : ℕ := l.countP (fun c => isExclCp c.toNat)

/-- Modelled from the spec (design note on the classifier and claim C2): the
variant classifier that scans the full text, accumulates the four script
counters, and applies the same threshold comparisons (Japanese ≥ 10,
Korean ≥ 10, excluded > 50, Latin ≥ 30, in the listed order) only after the
scan completes, keeping the 30-byte length floor. -/
def classifyLangFull (t : List Char) : Option Lang :=
  if utf8Len t < 30 then none
  else if 10 ≤ countJa t then some Lang.ja
  else if 10 ≤ countKo t then some Lang.ko
  else if 50 < countExcl t then none
  else if 30 ≤ countLatin t then some Lang.en
  else none

/-! ## Regex character classes and replacement scanners

The six regexes of filter.rs (lines 97-102) are embedded as executable
scanners with the regex crate's leftmost-first, non-overlapping
`replace_all` semantics.  None of the patterns can backtrack into a
different match at the same starting position (each quantified class
excludes its closing delimiter, or the lazy/greedy choice is forced), so the
scanners below are direct single-pass translations. -/

/-- Unicode White_Space, the regex `\s` class and the class used by Rust's
`str::trim` and `split_whitespace`.  This is the complete White_Space list of
the Unicode character database. -/
def isUniWs (c : Char) : Bool :=
  let n := c.toNat
  decide (0x9 ≤ n ∧ n ≤ 0xD) || decide (n = 0x20) || decide (n = 0x85) ||
    decide (n = 0xA0) || decide (n = 0x1680) ||
    decide (0x2000 ≤ n ∧ n ≤ 0x200A) || decide (n = 0x2028) ||
    decide (n = 0x2029) || decide (n = 0x202F) || decide (n = 0x205F) ||
    decide (n = 0x3000)

/-- The regex `\d` class, modelled as ASCII decimal digits: the inline
timestamp tags this class is applied to (`[mm:ss.xx]`) use ASCII digits. -/
def isDigitCh (c : Char) : Bool := c.isDigit

/-- The regex `\w` (word character) class, as a documented decidable
approximation of the engine's Unicode word class restricted to the script
ranges this corpus and the classifier exercise: ASCII alphanumerics and
underscore; Latin-1 and Latin Extended letters; Greek, Cyrillic, Arabic,
Devanagari and Thai letters and digits; kana, CJK ideographs and Hangul;
fullwidth alphanumerics. -/
def isWordChar (c : Char) : Bool :=
  let n := c.toNat
  decide (0x30 ≤ n ∧ n ≤ 0x39) || decide (0x41 ≤ n ∧ n ≤ 0x5A) ||
    decide (0x61 ≤ n ∧ n ≤ 0x7A) || decide (n = 0x5F) ||
    (decide (0xC0 ≤ n ∧ n ≤ 0x24F) && !decide (n = 0xD7) && !decide (n = 0xF7)) ||
    decide (0x391 ≤ n ∧ n ≤ 0x3A9) || decide (0x3B1 ≤ n ∧ n ≤ 0x3C9) ||
    decide (0x400 ≤ n ∧ n ≤ 0x4FF) ||
    decide (0x620 ≤ n ∧ n ≤ 0x64A) || decide (0x660 ≤ n ∧ n ≤ 0x669) ||
    decide (0x671 ≤ n ∧ n ≤ 0x6D3) ||
    decide (0x900 ≤ n ∧ n ≤ 0x963) || decide (0x966 ≤ n ∧ n ≤ 0x96F) ||
    decide (0xE01 ≤ n ∧ n ≤ 0xE3A) || decide (0xE40 ≤ n ∧ n ≤ 0xE4E) ||
    decide (0xE50 ≤ n ∧ n ≤ 0xE59) ||
    decide (0x1100 ≤ n ∧ n ≤ 0x11FF) ||
    decide (0x3041 ≤ n ∧ n ≤ 0x3096) ||
    (decide (0x3099 ≤ n ∧ n ≤ 0x30FF) && !decide (n = 0x309B) &&
      !decide (n = 0x309C) && !decide (n = 0x30FB)) ||
    decide (0x3400 ≤ n ∧ n ≤ 0x4DBF) || decide (0x4E00 ≤ n ∧ n ≤ 0x9FFF) ||
    decide (0xAC00 ≤ n ∧ n ≤ 0xD7A3) ||
    decide (0xFF10 ≤ n ∧ n ≤ 0xFF19) || decide (0xFF21 ≤ n ∧ n ≤ 0xFF3A) ||
    decide (0xFF41 ≤ n ∧ n ≤ 0xFF5A)

/-- Rust's `char::to_lowercase`, as a documented approximation covering ASCII,
Latin-1 and Cyrillic one-to-one lowercasings; other characters map to
themselves. -/
def toLowerCh (c : Char) : Char :=
  let n := c.toNat
  if 0x41 ≤ n ∧ n ≤ 0x5A then Char.ofNat (n + 0x20)
  else if (0xC0 ≤ n ∧ n ≤ 0xDE) ∧ n ≠ 0xD7 then Char.ofNat (n + 0x20)
  else if 0x410 ≤ n ∧ n ≤ 0x42F then Char.ofNat (n + 0x20)
  else if 0x400 ≤ n ∧ n ≤ 0x40F then Char.ofNat (n + 0x50)
  else c

/-- Characters matched inside an inline timestamp tag: the `[\d:.]` class of
`re_ts`. -/
def isTsChar (c : Char) : Bool := isDigitCh c || c = ':' || c = '.'

/-- `re_ts.replace_all(text, "")` for `re_ts = \[[\d:.]+\]` (filter.rs
line 97 / line 159): removes every bracketed run of one or more
digit/colon/dot characters.  The scanner is leftmost-first: a match needs a
literal bracket, a nonempty timestamp-character run, and a closing bracket;
otherwise the head character is kept and scanning resumes one position
later. -/
def stripTsGo : ℕ → List Char → List Char
  | _, [] => []
  | 0, l => l
  | fuel + 1, c :: rest =>
    if c = '[' ∧ rest.takeWhile isTsChar ≠ [] ∧
        (rest.dropWhile isTsChar).head? = some ']' then
      stripTsGo fuel (rest.dropWhile isTsChar).tail
    else
      c :: stripTsGo fuel rest

/-- The scanner applied with enough fuel: every step consumes at least one
character, so fuel equal to the input length never runs out (the `0, l`
fallback is unreachable); the fuel only makes the recursion structural, so
the definition reduces inside the kernel. -/
def stripTimeMarkers (l : List Char) : List Char := stripTsGo l.length l

/-- Plain or fullwidth parenthesis: the four characters of `re_paren`. -/
def isParenCh (c : Char) : Bool := c = '(' || c = ')' || c = '（' || c = '）'

/-- Opening plain or fullwidth parenthesis. -/
def isParenOpen (c : Char) : Bool := c = '(' || c = '（'

/-- Closing plain or fullwidth parenthesis. -/
def isParenClose (c : Char) : Bool := c = ')' || c = '）'

/-- `re_paren.replace_all(text, "")` for `re_paren = [(（][^()（）]*[)）]`
(filter.rs line 98, used by the fingerprint normalization): removes an
opening parenthesis, a possibly empty run of non-parenthesis characters
(newlines included), and a closing parenthesis. -/
def stripParenGo : ℕ → List Char → List Char
  | _, [] => []
  | 0, l => l
  | fuel + 1, c :: rest =>
    if isParenOpen c ∧
        ((rest.dropWhile (fun x => !isParenCh x)).head?.any isParenClose) = true then
      stripParenGo fuel (rest.dropWhile (fun x => !isParenCh x)).tail
    else
      c :: stripParenGo fuel rest

/-- The scanner applied with enough fuel (see `stripTimeMarkers`): fuel equal
to the input length never runs out and only makes the recursion
structural. -/
def stripParen (l : List Char) : List Char := stripParenGo l.length l

/-- Opening bracket class of `re_bracket`: `[(（\[【]`. -/
def isBrOpen (c : Char) : Bool := c = '(' || c = '（' || c = '[' || c = '【'

/-- Closing bracket class of `re_bracket`: `[)）\]】]`. -/
def isBrClose (c : Char) : Bool := c = ')' || c = '）' || c = ']' || c = '】'

/-- A character the lazy `.+?` of `re_bracket` steps over: anything that is
neither a closing bracket (which ends the match) nor a newline (which `.`
cannot match). -/
def brBodyCh (c : Char) : Bool := !(isBrClose c || c = '\n')

/-- `re_bracket.replace_all(name, "")` for
`re_bracket = \s*[(（\[【].+?[)）\]】]` (filter.rs line 101, used by
`normalize_name`): removes optional leading whitespace, an opening bracket,
at least one non-newline character lazily, and the first closing bracket
reached without crossing a newline. -/
def stripBracket : List Char → List Char
  | [] => []
  | c :: rest =>
    match hw : (c :: rest).dropWhile isUniWs with
    | o :: c1 :: t =>
      if isBrOpen o ∧ c1 ≠ '\n' ∧
          ((t.dropWhile brBodyCh).head?.any isBrClose) = true then
        stripBracket (t.dropWhile brBodyCh).tail
      else
        c :: stripBracket rest
    | _ => c :: stripBracket rest
termination_by l => l.length
decreasing_by
· have h1 := (List.dropWhile_sublist (l := c :: rest) isUniWs).length_le
  rw [hw] at h1
  have h2 := (List.dropWhile_sublist (l := t) brBodyCh).length_le
  simp only [List.length_cons, List.length_tail] at h1 ⊢
  omega
· simp only [List.length_cons]
  omega
· simp only [List.length_cons]
  omega

/-- Case-insensitive literal matching for the `(?i)` keywords of `re_feat`:
consumes the keyword (given lowercase) from the head of the text, comparing
lowercased characters, and returns the remainder. -/
def kwStrip : List Char → List Char → Option (List Char)
  | [], s => some s
  | _ :: _, [] => none
  | k :: ks, c :: cs => if toLowerCh c = k then kwStrip ks cs else none

/-- The `\s+.*$` tail of `re_feat` after a keyword: at least one whitespace
character, and, `.` being unable to match a newline and `$` anchoring at the
end of the haystack, no newline after the greedy whitespace run. -/
def featTail (s : List Char) : Bool :=
  s.takeWhile isUniWs ≠ [] && !((s.dropWhile isUniWs).contains '\n')

/-- Does `re_feat = (?i)\s*(feat|ft|with)\s+.*$` match starting at this
position (leading whitespace included in the match)? -/
def featHere (l : List Char) : Bool :=
  let s := l.dropWhile isUniWs
  (match kwStrip ['f', 'e', 'a', 't'] s with
   | some s2 => featTail s2
   | none => false) ||
  (match kwStrip ['f', 't'] s with
   | some s2 => featTail s2
   | none => false) ||
  (match kwStrip ['w', 'i', 't', 'h'] s with
   | some s2 => featTail s2
   | none => false)

/-- `re_feat.replace_all(name, "")` (filter.rs line 102, used by
`normalize_name`): the pattern is anchored at the end of the haystack, so it
removes everything from the leftmost matching position onward. -/
def stripFeat : List Char → List Char
  | [] => []
  | c :: rest => if featHere (c :: rest) then [] else c :: stripFeat rest

/-- `re_symbol.replace_all(name, "")` for `re_symbol = [^\w\s]` (filter.rs
line 100): a single-character class replacement, i.e. keep exactly the word
and whitespace characters. -/
def stripSymbol (l : List Char) : List Char :=
  l.filter (fun c => isWordChar c || isUniWs c)

/-- The word splitting of Rust's `str::split_whitespace`: maximal runs of
non-whitespace characters, empty runs discarded. -/
def wordsAux : List Char → List (List Char)
  | [] => []
  | c :: rest =>
    if isUniWs c then wordsAux rest
    else
      ((c :: rest).takeWhile (fun x => !isUniWs x)) ::
        wordsAux ((c :: rest).dropWhile (fun x => !isUniWs x))
termination_by l => l.length
decreasing_by
· simp only [List.length_cons]
  omega
· rename_i h
  rw [List.dropWhile_cons_of_pos (by simpa using h)]
  have h1 := (List.dropWhile_sublist (l := rest) (fun x => !isUniWs x)).length_le
  simp only [List.length_cons]
  omega

/-- `normalize_name` (filter.rs lines 56-63): lowercase, remove bracketed
annotation groups, remove a trailing feat/ft/with credit, strip remaining
symbols, and collapse whitespace runs to single spaces
(`split_whitespace` + `join(" ")`). -/
def normalize_name (name : List Char) : List Char :=
  let n := name.map toLowerCh
  let n := stripBracket n
  let n := stripFeat n
  let n := stripSymbol n
  List.intercalate [' '] (wordsAux n)

/-- The fingerprint text normalization of `lyrics_fingerprint` (filter.rs
lines 71-73): remove parenthetical asides, remove all non-word characters,
lowercase. -/
def fpNormalize (text_no_ts : List Char) : List Char :=
  ((stripParen text_no_ts).filter isWordChar).map toLowerCh

/-! ## MD5 (RFC 1321), the 128-bit digest of `lyrics_fingerprint` -/

/-- The 64 sine-derived round constants of MD5. -/
def md5K : List ℕ :=
  [0xD76AA478, 0xE8C7B756, 0x242070DB, 0xC1BDCEEE,
   0xF57C0FAF, 0x4787C62A, 0xA8304613, 0xFD469501,
   0x698098D8, 0x8B44F7AF, 0xFFFF5BB1, 0x895CD7BE,
   0x6B901122, 0xFD987193, 0xA679438E, 0x49B40821,
   0xF61E2562, 0xC040B340, 0x265E5A51, 0xE9B6C7AA,
   0xD62F105D, 0x02441453, 0xD8A1E681, 0xE7D3FBC8,
   0x21E1CDE6, 0xC33707D6, 0xF4D50D87, 0x455A14ED,
   0xA9E3E905, 0xFCEFA3F8, 0x676F02D9, 0x8D2A4C8A,
   0xFFFA3942, 0x8771F681, 0x6D9D6122, 0xFDE5380C,
   0xA4BEEA44, 0x4BDECFA9, 0xF6BB4B60, 0xBEBFBC70,
   0x289B7EC6, 0xEAA127FA, 0xD4EF3085, 0x04881D05,
   0xD9D4D039, 0xE6DB99E5, 0x1FA27CF8, 0xC4AC5665,
   0xF4292244, 0x432AFF97, 0xAB9423A7, 0xFC93A039,
   0x655B59C3, 0x8F0CCC92, 0xFFEFF47D, 0x85845DD1,
   0x6FA87E4F, 0xFE2CE6E0, 0xA3014314, 0x4E0811A1,
   0xF7537E82, 0xBD3AF235, 0x2AD7D2BB, 0xEB86D391]

/-- The per-round left-rotation amounts of MD5. -/
def md5Shift : List ℕ :=
  [7, 12, 17, 22, 7, 12, 17, 22, 7, 12, 17, 22, 7, 12, 17, 22,
   5, 9, 14, 20, 5, 9, 14, 20, 5, 9, 14, 20, 5, 9, 14, 20,
   4, 11, 16, 23, 4, 11, 16, 23, 4, 11, 16, 23, 4, 11, 16, 23,
   6, 10, 15, 21, 6, 10, 15, 21, 6, 10, 15, 21, 6, 10, 15, 21]

/-- 32-bit left rotation on naturals below 2^32. -/
def rotl32 (x s : ℕ) : ℕ := ((x <<< s) ||| (x >>> (32 - s))) % 4294967296

/-- The round mixing function of MD5 (F, G, H, I by round quarter). -/
def md5Mix (i b c d : ℕ) : ℕ :=
  if i < 16 then (b &&& c) ||| ((4294967295 ^^^ b) &&& d)
  else if i < 32 then (d &&& b) ||| ((4294967295 ^^^ d) &&& c)
  else if i < 48 then b ^^^ c ^^^ d
  else c ^^^ (b ||| (4294967295 ^^^ d))

/-- The message-word index of MD5 round `i`. -/
def md5Idx (i : ℕ) : ℕ :=
  if i < 16 then i
  else if i < 32 then (5 * i + 1) % 16
  else if i < 48 then (3 * i + 5) % 16
  else (7 * i) % 16

/-- A 32-bit little-endian word from four bytes. -/
def word32 (b0 b1 b2 b3 : ℕ) : ℕ :=
  b0 + 256 * b1 + 65536 * b2 + 16777216 * b3

/-- The sixteen 32-bit little-endian words of a 64-byte block. -/
def blockWords : List ℕ → List ℕ
  | b0 :: b1 :: b2 :: b3 :: rest => word32 b0 b1 b2 b3 :: blockWords rest
  | _ => []

/-- One MD5 round on the running (A, B, C, D) state. -/
def md5Step (M : List ℕ) (st : ℕ × ℕ × ℕ × ℕ) (i : ℕ) : ℕ × ℕ × ℕ × ℕ :=
  match st with
  | (a, b, c, d) =>
    let f := (md5Mix i b c d + a + md5K.getD i 0 + M.getD (md5Idx i) 0) % 4294967296
    (d, (b + rotl32 f (md5Shift.getD i 0)) % 4294967296, b, c)

/-- Process one 64-byte block: 64 rounds, then add into the chaining state. -/
def md5Block (st : ℕ × ℕ × ℕ × ℕ) (block : List ℕ) : ℕ × ℕ × ℕ × ℕ :=
  match st, (List.range 64).foldl (md5Step (blockWords block)) st with
  | (a0, b0, c0, d0), (a, b, c, d) =>
    ((a0 + a) % 4294967296, (b0 + b) % 4294967296,
     (c0 + c) % 4294967296, (d0 + d) % 4294967296)

/-- Split a padded message into 64-byte blocks. -/
def toBlocks : List ℕ → List (List ℕ)
  | [] => []
  | b :: rest => (b :: rest).take 64 :: toBlocks ((b :: rest).drop 64)
termination_by l => l.length
decreasing_by
· simp only [List.length_drop, List.length_cons]
  omega

/-- Eight little-endian bytes of a natural (the 64-bit length field). -/
def leBytes8 (n : ℕ) : List ℕ :=
  [n % 256, n / 256 % 256, n / 65536 % 256, n / 16777216 % 256,
   n / 4294967296 % 256, n / 1099511627776 % 256,
   n / 281474976710656 % 256, n / 72057594037927936 % 256]

/-- Four little-endian bytes of a 32-bit word. -/
def leBytes4 (w : ℕ) : List ℕ :=
  [w % 256, w / 256 % 256, w / 65536 % 256, w / 16777216 % 256]

/-- MD5 padding: a 0x80 byte, zeros to 56 mod 64, then the bit length as a
64-bit little-endian quantity. -/
def md5Pad (msg : List ℕ) : List ℕ :=
  msg ++ 128 :: List.replicate ((119 - msg.length % 64) % 64) 0 ++
    leBytes8 ((8 * msg.length) % 18446744073709551616)

/-- The 16-byte MD5 digest of a byte sequence. -/
def md5Bytes (msg : List ℕ) : List ℕ :=
  match (toBlocks (md5Pad msg)).foldl md5Block
      (0x67452301, 0xEFCDAB89, 0x98BADCFE, 0x10325476) with
  | (a, b, c, d) => leBytes4 a ++ leBytes4 b ++ leBytes4 c ++ leBytes4 d

/-- UTF-8 encoding of one character. -/
def utf8Bytes (c : Char) : List ℕ :=
  let n := c.toNat
  if n < 128 then [n]
  else if n < 2048 then [192 + n / 64, 128 + n % 64]
  else if n < 65536 then [224 + n / 4096, 128 + n / 64 % 64, 128 + n % 64]
  else [240 + n / 262144, 128 + n / 4096 % 64, 128 + n / 64 % 64, 128 + n % 64]

/-- UTF-8 encoding of a character list; models Rust's `str::as_bytes`. -/
def utf8Encode (l : List Char) : List ℕ :=
  l.foldr (fun c a => utf8Bytes c ++ a) []

/-- `lyrics_fingerprint` (filter.rs lines 70-78): normalize, and if the
result is empty produce no fingerprint, otherwise the MD5 digest of the
normalized text's UTF-8 bytes. -/
def lyrics_fingerprint (text_no_ts : List Char) : Option (List ℕ) :=
  let text := fpNormalize text_no_ts
  if text = [] then none else some (md5Bytes (utf8Encode text))

/-! ## Duration bucketing, records, run state, and the per-record step -/

/-- Round half away from zero, the behavior of Rust's `f64::round`. -/
def roundHalfAway (q : ℚ) : ℤ :=
  if 0 ≤ q then ⌊q + 1/2⌋ else -⌊-q + 1/2⌋

/-- The duration bucket of filter.rs line 182:
`(dur.unwrap_or(0.0) / 10.0).round() as i64` — a missing duration counts as
0, and the quotient by 10 is rounded to the nearest integer (halves away from
zero). -/
def durBucket (dur : Option ℚ) : ℤ :=
  roundHalfAway (dur.getD 0 / 10)

/-- A source record as read from the input store (filter.rs lines 141-146). -/
structure SourceRecord : Type where
  rid : ℤ
  track : List Char
  artist : List Char
  album : Option (List Char)
  dur : Option ℚ
  lyrics : List Char
deriving DecidableEq

/-- An output-store row: the source fields plus the assigned language tag
(filter.rs lines 195-198). -/
structure OutRow : Type where
  rid : ℤ
  track : List Char
  artist : List Char
  album : Option (List Char)
  dur : Option ℚ
  lyrics : List Char
  lang : Lang
deriving DecidableEq

/-- Rust's `str::trim`: drop Unicode whitespace from both ends. -/
def trimChars (l : List Char) : List Char :=
  ((l.dropWhile isUniWs).reverse.dropWhile isUniWs).reverse

/-- `line_count` (filter.rs line 155): number of newlines plus one. -/
def lineCountOf (lyrics : List Char) : ℕ := lyrics.count '\n' + 1

/-- The metadata identity key (filter.rs lines 179-183): the tab-separated
concatenation of normalized artist, normalized track, and the decimal
rendering of the duration bucket. -/
def metaKey (artist track : List Char) (dur : Option ℚ) : List Char :=
  normalize_name artist ++ '\t' :: normalize_name track ++
    '\t' :: (toString (durBucket dur)).data

/-- The metadata identity key of a source record. -/
def metaKeyOf (r : SourceRecord) : List Char := metaKey r.artist r.track r.dur

/-- The metadata identity key recomputed from an output row's fields. -/
def rowKey (row : OutRow) : List Char := metaKey row.artist row.track row.dur

/-- The line count of an output row's lyrics. -/
def rowLineCount (row : OutRow) : ℕ := lineCountOf row.lyrics

/-- The run state: the fingerprint index `fp_seen`, the metadata identity
index `meta_seen` (an association list modelling the hash map: at most one
entry per key), the output store contents, and the five counters of
`stats` (filter.rs lines 122-126).  `statsKept` is `ℤ` so the supersession
decrement is exact. -/
structure St : Type where
  fpSeen : List (List ℕ)
  metaSeen : List (List Char × ℤ × ℕ)
  output : List OutRow
  statsQuality : ℕ
  statsLang : ℕ
  statsFp : ℕ
  statsMeta : ℕ
  statsKept : ℤ
deriving DecidableEq

/-- The empty initial run state. -/
def initSt : St := ⟨[], [], [], 0, 0, 0, 0, 0⟩

/-- `meta_seen.get(&meta_key)` on the association list. -/
def lookupMeta (m : List (List Char × ℤ × ℕ)) (k : List Char) : Option (ℤ × ℕ) :=
  (m.find? (fun e => e.1 == k)).map (fun e => e.2)

/-- `meta_seen.insert(meta_key, v)`: replaces any existing entry for the key,
keeping at most one entry per key like the hash map. -/
def insertMeta (m : List (List Char × ℤ × ℕ)) (k : List Char) (v : ℤ × ℕ) :
    List (List Char × ℤ × ℕ) :=
  (k, v) :: m.filter (fun e => !(e.1 == k))

/-- The accepted-record write (filter.rs lines 193-199): record the candidate
in the metadata index, INSERT its row, and increment `kept`. -/
def writeRecord (s : St) (r : SourceRecord) (lang : Lang) (line_count : ℕ) : St :=
  { s with
    metaSeen := insertMeta s.metaSeen (metaKeyOf r) (r.rid, line_count),
    output := s.output ++ [⟨r.rid, r.track, r.artist, r.album, r.dur, r.lyrics, lang⟩],
    statsKept := s.statsKept + 1 }

/-- The metadata dedup stage (filter.rs lines 177-199): reject a candidate no
longer than the stored record for its key; otherwise supersede (DELETE the
prior row by id, count it, decrement `kept`) if the key was present, and
write the candidate. -/
def metaStage (s : St) (r : SourceRecord) (lang : Lang) (line_count : ℕ) : St :=
  match lookupMeta s.metaSeen (metaKeyOf r) with
  | some (prev_id, prev_lines) =>
    if line_count ≤ prev_lines then
      { s with statsMeta := s.statsMeta + 1 }
    else
      writeRecord
        { s with
          output := s.output.filter (fun row => !(row.rid == prev_id)),
          statsMeta := s.statsMeta + 1,
          statsKept := s.statsKept - 1 }
        r lang line_count
  | none => writeRecord s r lang line_count

/-- Processing of one record pulled from the stream (filter.rs
lines 154-199): quality gate, language classification, fingerprint dedup,
then the metadata stage.  The `line_count` and the time-marker-stripped text
are each computed once in the source and reused; here the shared
subexpressions appear through the shared definitions. -/
def processRecord (s : St) (r : SourceRecord) : St :=
  if lineCountOf r.lyrics < 10 then
    { s with statsQuality := s.statsQuality + 1 }
  else if utf8Len (trimChars (stripTimeMarkers r.lyrics)) < 100 then
    { s with statsQuality := s.statsQuality + 1 }
  else
    match classify_lang (stripTimeMarkers r.lyrics) with
    | none => { s with statsLang := s.statsLang + 1 }
    | some lang =>
      match lyrics_fingerprint (stripTimeMarkers r.lyrics) with
      | some fp =>
        if fp ∈ s.fpSeen then { s with statsFp := s.statsFp + 1 }
        else metaStage { s with fpSeen := fp :: s.fpSeen } r lang (lineCountOf r.lyrics)
      | none => metaStage s r lang (lineCountOf r.lyrics)

/-- The full run over a stream of records: a left fold of the per-record
step from the empty state (the `while` loop of filter.rs lines 140-205). -/
def runStream (l : List SourceRecord) : St := l.foldl processRecord initSt

/-- The SQL pushed-down predicate of filter.rs lines 130-133: records with a
present duration below 60 seconds never enter the stream. -/
def sqlDurationFilter (l : List SourceRecord) : List SourceRecord :=
  l.filter (fun r => match r.dur with
    | some d => decide (60 ≤ d)
    | none => true)

/-- The quality gate's rejection condition (filter.rs lines 154-162): fewer
than 10 newline-separated lines, or trimmed time-marker-stripped text below
100 bytes. -/
def qualityRejected (r : SourceRecord) : Bool :=
  decide (lineCountOf r.lyrics < 10) ||
    decide (utf8Len (trimChars (stripTimeMarkers r.lyrics)) < 100)

/-- Does a record reach the metadata-dedup stage when processed in state
`s`?  It must pass the quality gate, be assigned a language, and not be a
content duplicate (no fingerprint, or a fingerprint not yet indexed). -/
def reachesMeta (s : St) (r : SourceRecord) : Bool :=
  !(qualityRejected r) && (classify_lang (stripTimeMarkers r.lyrics)).isSome &&
    (match lyrics_fingerprint (stripTimeMarkers r.lyrics) with
     | some fp => !(decide (fp ∈ s.fpSeen))
     | none => true)

/-- The (key, line count) pairs of the records of a stream that reach the
metadata-dedup stage, in stream order, starting from state `s`. -/
def metaCands : St → List SourceRecord → List (List Char × ℕ)
  | _, [] => []
  | s, r :: rest =>
    (if reachesMeta s r then [(metaKeyOf r, lineCountOf r.lyrics)] else []) ++
      metaCands (processRecord s r) rest

/-- The line counts of the metadata-stage candidates of a full run that
carry the given key. -/
def candLines (l : List SourceRecord) (k : List Char) : List ℕ :=
  (metaCands initSt l).filterMap (fun p => if p.1 = k then some p.2 else none)

/-- Does processing `r` in state `s` execute an output-store INSERT? -/
def writtenAt (s : St) (r : SourceRecord) : Bool :=
  reachesMeta s r &&
    (match lookupMeta s.metaSeen (metaKeyOf r) with
     | some p => decide (p.2 < lineCountOf r.lyrics)
     | none => true)

/-- Does processing `r` in state `s` execute an output-store DELETE? -/
def deletedAt (s : St) (r : SourceRecord) : Bool :=
  reachesMeta s r &&
    (match lookupMeta s.metaSeen (metaKeyOf r) with
     | some p => decide (p.2 < lineCountOf r.lyrics)
     | none => false)

/-- Number of output-store INSERT statements a stream executes from `s`. -/
def writesOf : St → List SourceRecord → ℕ
  | _, [] => 0
  | s, r :: rest => (if writtenAt s r then 1 else 0) + writesOf (processRecord s r) rest

/-- Number of output-store DELETE statements a stream executes from `s`. -/
def deletesOf : St → List SourceRecord → ℕ
  | _, [] => 0
  | s, r :: rest => (if deletedAt s r then 1 else 0) + deletesOf (processRecord s r) rest

/-- The sum of the five run counters. -/
def counterSum (s : St) : ℤ :=
  (s.statsQuality : ℤ) + s.statsLang + s.statsFp + s.statsMeta + s.statsKept

/-! ## Concrete inputs used by the claim witnesses -/

/-- Ten hiragana characters: exactly 30 UTF-8 bytes and 10 Japanese-script
characters. -/
def c5Text10 : List Char := List.replicate 10 'あ'

/-- Nine hiragana characters. -/
def c5Text9 : List Char := List.replicate 9 'あ'

/-- Ten Hangul syllables followed by ten hiragana: the early-exit classifier
answers Korean, the full-scan variant answers Japanese. -/
def c2Text : List Char := List.replicate 10 '가' ++ List.replicate 10 'あ'

/-- Ten hiragana characters, for the amended-claim witness. -/
def c2WText : List Char := List.replicate 10 'あ'

/-- A three-line record: quality-rejected by the line-count rule. -/
def c6Rec : SourceRecord :=
  ⟨11, "t".data, "a".data, none, none, "ab\ncd\nef".data⟩

/-- Ten 13-character Latin lines: passes the quality gate, classifies as
English, and has a nonempty fingerprint normalization. -/
def c3Lyrics : List Char :=
  "aaaaaaaaaaaaa\naaaaaaaaaaaaa\naaaaaaaaaaaaa\naaaaaaaaaaaaa\naaaaaaaaaaaaa\naaaaaaaaaaaaa\naaaaaaaaaaaaa\naaaaaaaaaaaaa\naaaaaaaaaaaaa\naaaaaaaaaaaaa".data

/-- First record of the content-duplicate witness pair. -/
def c3RecA : SourceRecord := ⟨21, "x".data, "p".data, none, none, c3Lyrics⟩

/-- Second record of the pair: same lyrics, entirely different metadata. -/
def c3RecB : SourceRecord := ⟨22, "y".data, "q".data, none, none, c3Lyrics⟩

/-- Ten Latin lines wrapped in one parenthetical aside: passes the quality
gate and the classifier, but fingerprint-normalizes to the empty string. -/
def c7Lyrics : List Char :=
  "(aaaaaaaaaaaaa\naaaaaaaaaaaaa\naaaaaaaaaaaaa\naaaaaaaaaaaaa\naaaaaaaaaaaaa\naaaaaaaaaaaaa\naaaaaaaaaaaaa\naaaaaaaaaaaaa\naaaaaaaaaaaaa\naaaaaaaaaaaaa)".data

/-- A record whose entire lyric text is one parenthetical aside. -/
def c7Rec : SourceRecord := ⟨31, "t".data, "a".data, none, none, c7Lyrics⟩

/-- A state whose metadata index already stores the witness record's key
with a 50-line record of id 5. -/
def c8St : St := { initSt with metaSeen := [(metaKeyOf c7Rec, (5, 50))] }

end LrcFilter

namespace LrcFilter

/-! ## Branch characterizations of the per-record step -/

theorem processRecord_quality (s : St) (r : SourceRecord)
    (h : qualityRejected r = true) :
    processRecord s r = { s with statsQuality := s.statsQuality + 1 } := by
  have h' : lineCountOf r.lyrics < 10 ∨
      utf8Len (trimChars (stripTimeMarkers r.lyrics)) < 100 := by
    simpa [qualityRejected] using h
  unfold processRecord
  rcases h' with h1 | h1
  · rw [if_pos h1]
  · by_cases h2 : lineCountOf r.lyrics < 10
    · rw [if_pos h2]
    · rw [if_neg h2, if_pos h1]

theorem qualityRejected_false {r : SourceRecord}
    (hq : qualityRejected r = false) :
    ¬ lineCountOf r.lyrics < 10 ∧
      ¬ utf8Len (trimChars (stripTimeMarkers r.lyrics)) < 100 := by
  simpa [qualityRejected] using hq

theorem processRecord_lang (s : St) (r : SourceRecord)
    (hq : qualityRejected r = false)
    (hl : classify_lang (stripTimeMarkers r.lyrics) = none) :
    processRecord s r = { s with statsLang := s.statsLang + 1 } := by
  obtain ⟨h1, h2⟩ := qualityRejected_false hq
  unfold processRecord
  rw [if_neg h1, if_neg h2, hl]

theorem processRecord_fpdup (s : St) (r : SourceRecord) (lang : Lang)
    (fp : List ℕ) (hq : qualityRejected r = false)
    (hl : classify_lang (stripTimeMarkers r.lyrics) = some lang)
    (hfp : lyrics_fingerprint (stripTimeMarkers r.lyrics) = some fp)
    (hmem : fp ∈ s.fpSeen) :
    processRecord s r = { s with statsFp := s.statsFp + 1 } := by
  obtain ⟨h1, h2⟩ := qualityRejected_false hq
  unfold processRecord
  rw [if_neg h1, if_neg h2, hl, hfp]
  simp only [if_pos hmem]

theorem processRecord_fpfresh (s : St) (r : SourceRecord) (lang : Lang)
    (fp : List ℕ) (hq : qualityRejected r = false)
    (hl : classify_lang (stripTimeMarkers r.lyrics) = some lang)
    (hfp : lyrics_fingerprint (stripTimeMarkers r.lyrics) = some fp)
    (hmem : fp ∉ s.fpSeen) :
    processRecord s r =
      metaStage { s with fpSeen := fp :: s.fpSeen } r lang (lineCountOf r.lyrics) := by
  obtain ⟨h1, h2⟩ := qualityRejected_false hq
  unfold processRecord
  rw [if_neg h1, if_neg h2, hl, hfp]
  simp only [if_neg hmem]

theorem processRecord_nofp (s : St) (r : SourceRecord) (lang : Lang)
    (hq : qualityRejected r = false)
    (hl : classify_lang (stripTimeMarkers r.lyrics) = some lang)
    (hfp : lyrics_fingerprint (stripTimeMarkers r.lyrics) = none) :
    processRecord s r = metaStage s r lang (lineCountOf r.lyrics) := by
  obtain ⟨h1, h2⟩ := qualityRejected_false hq
  unfold processRecord
  rw [if_neg h1, if_neg h2, hl, hfp]

theorem metaStage_reject (s : St) (r : SourceRecord) (lang : Lang)
    (lc : ℕ) (pid : ℤ) (plc : ℕ)
    (hlk : lookupMeta s.metaSeen (metaKeyOf r) = some (pid, plc))
    (hle : lc ≤ plc) :
    metaStage s r lang lc = { s with statsMeta := s.statsMeta + 1 } := by
  unfold metaStage
  rw [hlk]
  simp only [if_pos hle]

theorem metaStage_insert (s : St) (r : SourceRecord) (lang : Lang) (lc : ℕ)
    (hlk : lookupMeta s.metaSeen (metaKeyOf r) = none) :
    metaStage s r lang lc = writeRecord s r lang lc := by
  unfold metaStage
  rw [hlk]

theorem metaStage_supersede (s : St) (r : SourceRecord) (lang : Lang)
    (lc : ℕ) (pid : ℤ) (plc : ℕ)
    (hlk : lookupMeta s.metaSeen (metaKeyOf r) = some (pid, plc))
    (hgt : plc < lc) :
    metaStage s r lang lc =
      writeRecord
        { s with
          output := s.output.filter (fun row => !(row.rid == pid)),
          statsMeta := s.statsMeta + 1,
          statsKept := s.statsKept - 1 }
        r lang lc := by
  unfold metaStage
  rw [hlk]
  simp only [if_neg (by omega : ¬ lc ≤ plc)]

/-- Every step is either a rejection that leaves the metadata index, the
output store and the kept counter untouched, or hands the record (with its
assigned language) to the metadata stage in a state agreeing with `s` on
those components. -/
theorem processRecord_view (s : St) (r : SourceRecord) :
    (reachesMeta s r = false ∧
      (processRecord s r).metaSeen = s.metaSeen ∧
      (processRecord s r).output = s.output ∧
      (processRecord s r).statsKept = s.statsKept) ∨
    (reachesMeta s r = true ∧ ∃ lang s₂,
      s₂.metaSeen = s.metaSeen ∧ s₂.output = s.output ∧
      s₂.statsKept = s.statsKept ∧ s₂.statsMeta = s.statsMeta ∧
      processRecord s r = metaStage s₂ r lang (lineCountOf r.lyrics)) := by
  by_cases hq : qualityRejected r = true
  · left
    rw [processRecord_quality s r hq]
    exact ⟨by simp [reachesMeta, hq], rfl, rfl, rfl⟩
  · have hq' : qualityRejected r = false := by simpa using hq
    cases hl : classify_lang (stripTimeMarkers r.lyrics) with
    | none =>
      left
      rw [processRecord_lang s r hq' hl]
      exact ⟨by simp [reachesMeta, hl], rfl, rfl, rfl⟩
    | some lang =>
      cases hfp : lyrics_fingerprint (stripTimeMarkers r.lyrics) with
      | none =>
        right
        exact ⟨by simp [reachesMeta, hq', hl, hfp], lang, s, rfl, rfl, rfl, rfl,
          processRecord_nofp s r lang hq' hl hfp⟩
      | some fp =>
        by_cases hmem : fp ∈ s.fpSeen
        · left
          rw [processRecord_fpdup s r lang fp hq' hl hfp hmem]
          exact ⟨by simp [reachesMeta, hq', hl, hfp, hmem], rfl, rfl, rfl⟩
        · right
          exact ⟨by simp [reachesMeta, hq', hl, hfp, hmem], lang,
            { s with fpSeen := fp :: s.fpSeen }, rfl, rfl, rfl, rfl,
            processRecord_fpfresh s r lang fp hq' hl hfp hmem⟩

/-! ## Association-list helpers for the two indices -/

theorem lookupMeta_none_iff (m : List (List Char × ℤ × ℕ)) (k : List Char) :
    lookupMeta m k = none ↔ ∀ e ∈ m, ¬ e.1 = k := by
  simp [lookupMeta, List.find?_eq_none]

theorem lookupMeta_mem {m : List (List Char × ℤ × ℕ)} {k : List Char}
    {v : ℤ × ℕ} (h : lookupMeta m k = some v) :
    (k, v) ∈ m := by
  unfold lookupMeta at h
  obtain ⟨e, hf, hv⟩ := Option.map_eq_some'.mp h
  have h1 : e.1 = k := by simpa using List.find?_some hf
  have h2 : e ∈ m := List.mem_of_find?_eq_some hf
  have h3 : (k, v) = e := by
    cases e
    simp_all
  rwa [h3]

theorem lookupMeta_of_mem_nodup {m : List (List Char × ℤ × ℕ)}
    {k : List Char} {v : ℤ × ℕ} (hnd : (m.map (fun e => e.1)).Nodup)
    (hm : (k, v) ∈ m) : lookupMeta m k = some v := by
  induction m with
  | nil => simp at hm
  | cons e rest ih =>
    simp only [List.map_cons, List.nodup_cons] at hnd
    by_cases hek : e.1 = k
    · have hv : e = (k, v) := by
        rcases List.mem_cons.mp hm with h | h
        · exact h.symm
        · exact absurd (hek ▸ List.mem_map_of_mem (fun x => x.1) h) hnd.1
      unfold lookupMeta
      rw [List.find?_cons_of_pos _ (by simpa using hek)]
      simp [hv]
    · have hm' : (k, v) ∈ rest := by
        rcases List.mem_cons.mp hm with h | h
        · exact absurd (congrArg (fun x => x.1) h.symm) hek
        · exact h
      unfold lookupMeta
      rw [List.find?_cons_of_neg _ (by simpa using hek)]
      exact ih hnd.2 hm'

theorem filter_eq_self_of_lookup_none {m : List (List Char × ℤ × ℕ)}
    {k : List Char} (h : lookupMeta m k = none) :
    m.filter (fun e => !(e.1 == k)) = m := by
  rw [List.filter_eq_self]
  intro e he
  have := (lookupMeta_none_iff m k).mp h e he
  simpa using this

/-- Removing the entries carrying one present value of an injective-on-the-
list projection removes exactly one element. -/
theorem length_filter_out_nodup {α β : Type} [BEq β] [LawfulBEq β] (f : α → β)
    (m : List α) (b : β) (hnd : (m.map f).Nodup) (hmem : ∃ a ∈ m, f a = b) :
    (m.filter (fun x => !(f x == b))).length + 1 = m.length := by
  induction m with
  | nil => simp at hmem
  | cons a rest ih =>
    simp only [List.map_cons, List.nodup_cons] at hnd
    by_cases hab : f a = b
    · rw [List.filter_cons_of_neg (by simpa using hab)]
      have hrest : rest.filter (fun x => !(f x == b)) = rest := by
        rw [List.filter_eq_self]
        intro x hx
        have : f x ≠ b := fun hc => hnd.1 (hab ▸ hc ▸ List.mem_map_of_mem f hx)
        simpa using this
      simp [hrest]
    · rw [List.filter_cons_of_pos (by simpa using hab)]
      rcases hmem with ⟨x, hx, hfx⟩
      rcases List.mem_cons.mp hx with h | h
      · exact absurd (h ▸ hfx) hab
      · simp only [List.length_cons]
        rw [← ih hnd.2 ⟨x, h, hfx⟩]

/-- With pairwise distinct projections, at most one element carries any
given projection value. -/
theorem filter_eq_length_le_one {α β : Type} [BEq β] [LawfulBEq β] (f : α → β)
    (m : List α) (hnd : (m.map f).Nodup) (b : β) :
    (m.filter (fun x => f x == b)).length ≤ 1 := by
  induction m with
  | nil => simp
  | cons a rest ih =>
    simp only [List.map_cons, List.nodup_cons] at hnd
    by_cases hab : f a = b
    · rw [List.filter_cons_of_pos (by simpa using hab)]
      have hrest : rest.filter (fun x => f x == b) = [] := by
        rw [List.filter_eq_nil_iff]
        intro x hx
        have : f x ≠ b := fun hc => hnd.1 (hab ▸ hc ▸ List.mem_map_of_mem f hx)
        simpa using this
      simp [hrest]
    · rw [List.filter_cons_of_neg (by simpa using hab)]
      exact ih hnd.2

/-! ## Append decompositions of the run and of the stream statistics -/

theorem runStream_append (l₁ l₂ : List SourceRecord) :
    runStream (l₁ ++ l₂) = l₂.foldl processRecord (runStream l₁) := by
  unfold runStream
  exact List.foldl_append _ _ _ _

theorem runStream_snoc (l : List SourceRecord) (r : SourceRecord) :
    runStream (l ++ [r]) = processRecord (runStream l) r := by
  rw [runStream_append]
  rfl

theorem metaCands_append (s : St) (l₁ l₂ : List SourceRecord) :
    metaCands s (l₁ ++ l₂) =
      metaCands s l₁ ++ metaCands (l₁.foldl processRecord s) l₂ := by
  induction l₁ generalizing s with
  | nil => simp [metaCands]
  | cons r rest ih => simp [metaCands, ih, List.append_assoc]

theorem candLines_append (l : List SourceRecord) (r : SourceRecord)
    (k : List Char) :
    candLines (l ++ [r]) k =
      candLines l k ++
        (if reachesMeta (runStream l) r = true ∧ metaKeyOf r = k
         then [lineCountOf r.lyrics] else []) := by
  unfold candLines
  rw [show l ++ [r] = l ++ [r] from rfl, metaCands_append, List.filterMap_append]
  congr 1
  show (metaCands (runStream l) [r]).filterMap _ = _
  by_cases hr : reachesMeta (runStream l) r = true
  · by_cases hk : metaKeyOf r = k
    · simp [metaCands, hr, hk]
    · simp [metaCands, hr, hk]
  · simp only [Bool.not_eq_true] at hr
    simp [metaCands, hr]

theorem writesOf_append (s : St) (l₁ l₂ : List SourceRecord) :
    writesOf s (l₁ ++ l₂) =
      writesOf s l₁ + writesOf (l₁.foldl processRecord s) l₂ := by
  induction l₁ generalizing s with
  | nil => simp [writesOf]
  | cons r rest ih => simp [writesOf, ih]; omega

theorem deletesOf_append (s : St) (l₁ l₂ : List SourceRecord) :
    deletesOf s (l₁ ++ l₂) =
      deletesOf s l₁ + deletesOf (l₁.foldl processRecord s) l₂ := by
  induction l₁ generalizing s with
  | nil => simp [deletesOf]
  | cons r rest ih => simp [deletesOf, ih]; omega

/-! ## The run invariant -/

/-- The invariant tying the metadata index, the output store, the kept
counter and the stream history together after processing stream `l` into
state `s`: index keys, index record ids, output row ids and output row keys
are each pairwise distinct; `kept` equals the index size, which equals the
output size and balances the INSERT and DELETE counts; index entries and
output rows are in bijection (matching id, key and line count); every stored
line count is the maximum over the candidates with its key seen so far; keys
not in the index have no candidates yet; and stored ids come from processed
records. -/
structure RunInv (l : List SourceRecord) (s : St) : Prop where
  keysND : (s.metaSeen.map (fun e => e.1)).Nodup
  midsND : (s.metaSeen.map (fun e => e.2.1)).Nodup
  oidsND : (s.output.map (fun row => row.rid)).Nodup
  okeysND : (s.output.map rowKey).Nodup
  kept : s.statsKept = (s.metaSeen.length : ℤ)
  olen : s.output.length = s.metaSeen.length
  entryRow : ∀ e ∈ s.metaSeen, ∃ row ∈ s.output,
    row.rid = e.2.1 ∧ rowKey row = e.1 ∧ rowLineCount row = e.2.2
  rowEntry : ∀ row ∈ s.output, ∃ e ∈ s.metaSeen,
    e.2.1 = row.rid ∧ e.1 = rowKey row ∧ e.2.2 = rowLineCount row
  storedMax : ∀ e ∈ s.metaSeen,
    e.2.2 ∈ candLines l e.1 ∧ ∀ c ∈ candLines l e.1, c ≤ e.2.2
  absentNone : ∀ k, k ∉ s.metaSeen.map (fun e => e.1) → candLines l k = []
  entryIds : ∀ e ∈ s.metaSeen, e.2.1 ∈ l.map (fun x => x.rid)
  counts : writesOf initSt l = s.metaSeen.length + deletesOf initSt l

theorem runInv_nil : RunInv [] initSt := by
  refine ⟨?_, ?_, ?_, ?_, ?_, ?_, ?_, ?_, ?_, ?_, ?_, ?_⟩ <;>
    simp [initSt, candLines, metaCands, writesOf, deletesOf]

theorem runInv_step (l : List SourceRecord) (r : SourceRecord)
    (hrid : r.rid ∉ l.map (fun x => x.rid))
    (h : RunInv l (runStream l)) :
    RunInv (l ++ [r]) (runStream (l ++ [r])) := by
  have hrun : runStream (l ++ [r]) = processRecord (runStream l) r :=
    runStream_snoc l r
  set s := runStream l with hs
  have hwapp : writesOf initSt (l ++ [r]) =
      writesOf initSt l + (if writtenAt s r then 1 else 0) := by
    rw [writesOf_append]
    simp [writesOf, runStream, hs]
  have hdapp : deletesOf initSt (l ++ [r]) =
      deletesOf initSt l + (if deletedAt s r then 1 else 0) := by
    rw [deletesOf_append]
    simp [deletesOf, runStream, hs]
  rw [hrun]
  rcases processRecord_view s r with ⟨hnr, hm, ho, hk⟩ |
    ⟨hr, lang, s₂, hm2, ho2, hk2, hmm2, heq⟩
  · -- the record never reaches the metadata stage
    have hcand : ∀ k, candLines (l ++ [r]) k = candLines l k := by
      intro k
      rw [candLines_append]
      simp [hnr]
    have hwa : writtenAt s r = false := by simp [writtenAt, hnr]
    have hda : deletedAt s r = false := by simp [deletedAt, hnr]
    refine ⟨?_, ?_, ?_, ?_, ?_, ?_, ?_, ?_, ?_, ?_, ?_, ?_⟩
    · rw [hm]; exact h.keysND
    · rw [hm]; exact h.midsND
    · rw [ho]; exact h.oidsND
    · rw [ho]; exact h.okeysND
    · rw [hk, hm]; exact h.kept
    · rw [ho, hm]; exact h.olen
    · rw [hm, ho]; exact h.entryRow
    · rw [ho, hm]; exact h.rowEntry
    · rw [hm]
      intro e he
      simp only [hcand]
      exact h.storedMax e he
    · rw [hm]
      intro k hk'
      rw [hcand]
      exact h.absentNone k hk'
    · rw [hm]
      intro e he
      simp only [List.map_append, List.mem_append]
      exact Or.inl (h.entryIds e he)
    · rw [hwapp, hdapp, hm, hwa, hda]
      have := h.counts
      simp only [if_neg (by simp : ¬ False)] at *
      omega
  · -- the record reaches the metadata stage
    have hinl : ∀ i ∈ s.metaSeen.map (fun e => e.2.1), i ∈ l.map (fun x => x.rid) := by
      intro i hi
      obtain ⟨e, he, hei⟩ := List.mem_map.mp hi
      exact hei ▸ h.entryIds e he
    have hridmeta : r.rid ∉ s.metaSeen.map (fun e => e.2.1) :=
      fun hmem => hrid (hinl _ hmem)
    have houtid : ∀ i ∈ s.output.map (fun row => row.rid), i ∈ l.map (fun x => x.rid) := by
      intro i hi
      obtain ⟨row, hrow, hri⟩ := List.mem_map.mp hi
      obtain ⟨e, he, he1, _, _⟩ := h.rowEntry row hrow
      exact hri ▸ he1 ▸ h.entryIds e he
    have hridout : r.rid ∉ s.output.map (fun row => row.rid) :=
      fun hmem => hrid (houtid _ hmem)
    have hcand : ∀ k, candLines (l ++ [r]) k =
        candLines l k ++ (if metaKeyOf r = k then [lineCountOf r.lyrics] else []) := by
      intro k
      rw [candLines_append, ← hs]
      by_cases hkk : metaKeyOf r = k
      · simp [hr, hkk]
      · simp [hr, hkk]
    cases hlk : lookupMeta s.metaSeen (metaKeyOf r) with
    | none =>
      have hlk2 : lookupMeta s₂.metaSeen (metaKeyOf r) = none := by
        rw [hm2]; exact hlk
      have heq2 : processRecord s r = writeRecord s₂ r lang (lineCountOf r.lyrics) := by
        rw [heq, metaStage_insert _ _ _ _ hlk2]
      have hms : (processRecord s r).metaSeen =
          (metaKeyOf r, (r.rid, lineCountOf r.lyrics)) :: s.metaSeen := by
        rw [heq2]
        show insertMeta s₂.metaSeen (metaKeyOf r) (r.rid, lineCountOf r.lyrics) = _
        rw [insertMeta, hm2, filter_eq_self_of_lookup_none hlk]
      have hos : (processRecord s r).output =
          s.output ++ [⟨r.rid, r.track, r.artist, r.album, r.dur, r.lyrics, lang⟩] := by
        rw [heq2]
        show s₂.output ++ _ = _
        rw [ho2]
      have hks : (processRecord s r).statsKept = s.statsKept + 1 := by
        rw [heq2]
        show s₂.statsKept + 1 = _
        rw [hk2]
      have hk0new : metaKeyOf r ∉ s.metaSeen.map (fun e => e.1) := by
        intro hmem
        obtain ⟨e, he, hek⟩ := List.mem_map.mp hmem
        exact (lookupMeta_none_iff _ _).mp hlk e he hek
      have hk0out : metaKeyOf r ∉ s.output.map rowKey := by
        intro hmem
        obtain ⟨row, hrow, hrk⟩ := List.mem_map.mp hmem
        obtain ⟨e, he, _, he2, _⟩ := h.rowEntry row hrow
        exact hk0new ((he2.trans hrk) ▸ List.mem_map_of_mem (fun e => e.1) he)
      have hwa : writtenAt s r = true := by simp [writtenAt, hr, hlk]
      have hda : deletedAt s r = false := by simp [deletedAt, hr, hlk]
      refine ⟨?_, ?_, ?_, ?_, ?_, ?_, ?_, ?_, ?_, ?_, ?_, ?_⟩
      · rw [hms]
        simp only [List.map_cons, List.nodup_cons]
        exact ⟨hk0new, h.keysND⟩
      · rw [hms]
        simp only [List.map_cons, List.nodup_cons]
        exact ⟨hridmeta, h.midsND⟩
      · rw [hos]
        simp only [List.map_append]
        rw [List.nodup_append]
        refine ⟨h.oidsND, by simp, ?_⟩
        intro a ha hb
        simp only [List.map_cons, List.map_nil, List.mem_singleton] at hb
        subst hb
        exact hridout ha
      · rw [hos]
        simp only [List.map_append]
        rw [List.nodup_append]
        refine ⟨h.okeysND, by simp, ?_⟩
        intro a ha hb
        simp only [List.map_cons, List.map_nil, List.mem_singleton] at hb
        subst hb
        exact hk0out ha
      · rw [hks, hms]
        simp only [List.length_cons]
        rw [h.kept]
        push_cast
        ring
      · rw [hos, hms]
        simp [h.olen]
      · rw [hms, hos]
        intro e he
        rcases List.mem_cons.mp he with he1 | he1
        · subst he1
          exact ⟨⟨r.rid, r.track, r.artist, r.album, r.dur, r.lyrics, lang⟩,
            by simp, rfl, rfl, rfl⟩
        · obtain ⟨row, hrow, h1, h2, h3⟩ := h.entryRow e he1
          exact ⟨row, List.mem_append_left _ hrow, h1, h2, h3⟩
      · rw [hos, hms]
        intro row hrow
        rcases List.mem_append.mp hrow with h1 | h1
        · obtain ⟨e, he, a, b, c⟩ := h.rowEntry row h1
          exact ⟨e, List.mem_cons_of_mem _ he, a, b, c⟩
        · simp only [List.mem_singleton] at h1
          subst h1
          exact ⟨_, List.mem_cons_self _ _, rfl, rfl, rfl⟩
      · rw [hms]
        intro e he
        rcases List.mem_cons.mp he with he1 | he1
        · subst he1
          rw [hcand, if_pos rfl, h.absentNone _ hk0new]
          simp
        · have hne : metaKeyOf r ≠ e.1 := by
            intro hc
            exact hk0new (hc ▸ List.mem_map_of_mem (fun e => e.1) he1)
          rw [hcand, if_neg hne, List.append_nil]
          exact h.storedMax e he1
      · rw [hms]
        intro k hk'
        simp only [List.map_cons, List.mem_cons, not_or] at hk'
        rw [hcand, if_neg (fun hc => hk'.1 hc.symm), List.append_nil]
        exact h.absentNone k hk'.2
      · rw [hms]
        intro e he
        simp only [List.map_append, List.mem_append]
        rcases List.mem_cons.mp he with he1 | he1
        · subst he1
          right
          simp
        · exact Or.inl (h.entryIds e he1)
      · have hwapp2 : writesOf initSt (l ++ [r]) = writesOf initSt l + 1 := by
          rw [hwapp, hwa]
          simp
        have hdapp2 : deletesOf initSt (l ++ [r]) = deletesOf initSt l := by
          rw [hdapp, hda]
          simp
        rw [hwapp2, hdapp2, hms]
        have := h.counts
        simp only [List.length_cons]
        omega
    | some p =>
      obtain ⟨pid, plc⟩ := p
      have hk0mem : (metaKeyOf r, (pid, plc)) ∈ s.metaSeen := lookupMeta_mem hlk
      have hk0key : metaKeyOf r ∈ s.metaSeen.map (fun e => e.1) :=
        List.mem_map_of_mem (fun e => e.1) hk0mem
      have hlk2 : lookupMeta s₂.metaSeen (metaKeyOf r) = some (pid, plc) := by
        rw [hm2]; exact hlk
      by_cases hle : lineCountOf r.lyrics ≤ plc
      · -- RejectAsShorter: only the metadata-duplicate counter moves
        have heq2 : processRecord s r = { s₂ with statsMeta := s₂.statsMeta + 1 } := by
          rw [heq, metaStage_reject _ _ _ _ pid plc hlk2 hle]
        have hms : (processRecord s r).metaSeen = s.metaSeen := by
          rw [heq2]; exact hm2
        have hos : (processRecord s r).output = s.output := by
          rw [heq2]; exact ho2
        have hks : (processRecord s r).statsKept = s.statsKept := by
          rw [heq2]; exact hk2
        have hwa : writtenAt s r = false := by
          simp only [writtenAt, hr, hlk, Bool.true_and]
          simpa using hle
        have hda : deletedAt s r = false := by
          simp only [deletedAt, hr, hlk, Bool.true_and]
          simpa using hle
        have hwapp2 : writesOf initSt (l ++ [r]) = writesOf initSt l := by
          rw [hwapp, hwa]; simp
        have hdapp2 : deletesOf initSt (l ++ [r]) = deletesOf initSt l := by
          rw [hdapp, hda]; simp
        refine ⟨?_, ?_, ?_, ?_, ?_, ?_, ?_, ?_, ?_, ?_, ?_, ?_⟩
        · rw [hms]; exact h.keysND
        · rw [hms]; exact h.midsND
        · rw [hos]; exact h.oidsND
        · rw [hos]; exact h.okeysND
        · rw [hks, hms]; exact h.kept
        · rw [hos, hms]; exact h.olen
        · rw [hms, hos]; exact h.entryRow
        · rw [hos, hms]; exact h.rowEntry
        · rw [hms]
          intro e he
          by_cases hek : e.1 = metaKeyOf r
          · have huniq : lookupMeta s.metaSeen e.1 = some e.2 :=
              lookupMeta_of_mem_nodup h.keysND (by rw [Prod.mk.eta]; exact he)
            rw [hek] at huniq
            have he2 : (pid, plc) = e.2 := Option.some.inj (hlk.symm.trans huniq)
            have he22 : e.2.2 = plc := by rw [← he2]
            constructor
            · rw [hcand, if_pos hek.symm]
              exact List.mem_append_left _ (h.storedMax e he).1
            · intro c hc
              rw [hcand, if_pos hek.symm] at hc
              rcases List.mem_append.mp hc with hc1 | hc1
              · exact (h.storedMax e he).2 c hc1
              · simp only [List.mem_singleton] at hc1
                subst hc1
                rw [he22]
                exact hle
          · rw [hcand, if_neg (fun hc => hek hc.symm), List.append_nil]
            exact h.storedMax e he
        · rw [hms]
          intro k hk'
          have hkne : k ≠ metaKeyOf r := fun hc => hk' (hc ▸ hk0key)
          rw [hcand, if_neg (fun hc => hkne hc.symm), List.append_nil]
          exact h.absentNone k hk'
        · rw [hms]
          intro e he
          simp only [List.map_append, List.mem_append]
          exact Or.inl (h.entryIds e he)
        · rw [hwapp2, hdapp2, hms]
          exact h.counts
      · -- Supersede: the stored shorter record is replaced
        have hgt' : plc < lineCountOf r.lyrics := by omega
        have heq2 : processRecord s r =
            writeRecord
              { s₂ with
                output := s₂.output.filter (fun row => !(row.rid == pid)),
                statsMeta := s₂.statsMeta + 1,
                statsKept := s₂.statsKept - 1 }
              r lang (lineCountOf r.lyrics) := by
          rw [heq, metaStage_supersede _ _ _ _ pid plc hlk2 hgt']
        have hms : (processRecord s r).metaSeen =
            (metaKeyOf r, (r.rid, lineCountOf r.lyrics)) ::
              s.metaSeen.filter (fun e => !(e.1 == metaKeyOf r)) := by
          rw [heq2]
          show insertMeta s₂.metaSeen (metaKeyOf r) (r.rid, lineCountOf r.lyrics) = _
          rw [insertMeta, hm2]
        have hos : (processRecord s r).output =
            s.output.filter (fun row => !(row.rid == pid)) ++
              [⟨r.rid, r.track, r.artist, r.album, r.dur, r.lyrics, lang⟩] := by
          rw [heq2]
          show s₂.output.filter (fun row => !(row.rid == pid)) ++ _ = _
          rw [ho2]
        have hks : (processRecord s r).statsKept = s.statsKept - 1 + 1 := by
          rw [heq2]
          show s₂.statsKept - 1 + 1 = _
          rw [hk2]
        obtain ⟨row0, hrow0, hr0id, hr0key, hr0lc⟩ := h.entryRow _ hk0mem
        have hlenm : (s.metaSeen.filter (fun e => !(e.1 == metaKeyOf r))).length + 1 =
            s.metaSeen.length :=
          length_filter_out_nodup (fun e => e.1) s.metaSeen
            (metaKeyOf r) h.keysND ⟨_, hk0mem, rfl⟩
        have hleno : (s.output.filter (fun row => !(row.rid == pid))).length + 1 =
            s.output.length :=
          length_filter_out_nodup (fun row => row.rid) s.output
            pid h.oidsND ⟨row0, hrow0, hr0id⟩
        have hmf : ∀ e : List Char × ℤ × ℕ,
            e ∈ s.metaSeen.filter (fun e => !(e.1 == metaKeyOf r)) ↔
              e ∈ s.metaSeen ∧ e.1 ≠ metaKeyOf r := by
          intro e; simp [List.mem_filter]
        have hof : ∀ row : OutRow,
            row ∈ s.output.filter (fun row => !(row.rid == pid)) ↔
              row ∈ s.output ∧ row.rid ≠ pid := by
          intro row; simp [List.mem_filter]
        have hsubm : (s.metaSeen.filter (fun e => !(e.1 == metaKeyOf r))).Sublist
            s.metaSeen := List.filter_sublist _
        have hsubo : (s.output.filter (fun row => !(row.rid == pid))).Sublist
            s.output := List.filter_sublist _
        have hwa : writtenAt s r = true := by
          simp only [writtenAt, hr, hlk, Bool.true_and]
          simpa using hgt'
        have hda : deletedAt s r = true := by
          simp only [deletedAt, hr, hlk, Bool.true_and]
          simpa using hgt'
        have hwapp2 : writesOf initSt (l ++ [r]) = writesOf initSt l + 1 := by
          rw [hwapp, hwa]; simp
        have hdapp2 : deletesOf initSt (l ++ [r]) = deletesOf initSt l + 1 := by
          rw [hdapp, hda]; simp
        refine ⟨?_, ?_, ?_, ?_, ?_, ?_, ?_, ?_, ?_, ?_, ?_, ?_⟩
        · rw [hms]
          simp only [List.map_cons, List.nodup_cons]
          constructor
          · intro hmem
            obtain ⟨e, he, hek⟩ := List.mem_map.mp hmem
            exact ((hmf e).mp he).2 hek
          · exact h.keysND.sublist (hsubm.map _)
        · rw [hms]
          simp only [List.map_cons, List.nodup_cons]
          constructor
          · intro hmem
            obtain ⟨e, he, hei⟩ := List.mem_map.mp hmem
            exact hrid (hei ▸ h.entryIds e ((hmf e).mp he).1)
          · exact h.midsND.sublist (hsubm.map _)
        · rw [hos]
          simp only [List.map_append]
          rw [List.nodup_append]
          refine ⟨h.oidsND.sublist (hsubo.map _), by simp, ?_⟩
          intro a ha hb
          simp only [List.map_cons, List.map_nil, List.mem_singleton] at hb
          subst hb
          obtain ⟨row, hrow, hri⟩ := List.mem_map.mp ha
          exact hrid (hri ▸ houtid _ (List.mem_map_of_mem _ ((hof row).mp hrow).1))
        · rw [hos]
          simp only [List.map_append]
          rw [List.nodup_append]
          refine ⟨h.okeysND.sublist (hsubo.map _), by simp, ?_⟩
          intro a ha hb
          simp only [List.map_cons, List.map_nil, List.mem_singleton] at hb
          subst hb
          obtain ⟨row, hrow, hrk⟩ := List.mem_map.mp ha
          obtain ⟨hrowm, hrowne⟩ := (hof row).mp hrow
          obtain ⟨e, he, he1, he2, he3⟩ := h.rowEntry row hrowm
          have hek : e.1 = (metaKeyOf r, (pid, plc)).1 := by
            rw [he2, hrk]; rfl
          have hee : e = (metaKeyOf r, (pid, plc)) :=
            List.inj_on_of_nodup_map h.keysND he hk0mem hek
          exact hrowne (by rw [← he1, hee])
        · rw [hks, hms]
          simp only [List.length_cons]
          have hkk := h.kept
          push_cast
          push_cast at hkk
          omega
        · rw [hos, hms]
          simp only [List.length_append, List.length_cons]
          have := h.olen
          simp only [List.length_cons, List.length_nil]
          omega
        · rw [hms, hos]
          intro e he
          rcases List.mem_cons.mp he with he1 | he1
          · subst he1
            exact ⟨⟨r.rid, r.track, r.artist, r.album, r.dur, r.lyrics, lang⟩,
              by simp, rfl, rfl, rfl⟩
          · obtain ⟨hem, hene⟩ := (hmf e).mp he1
            obtain ⟨row, hrow, h1, h2, h3⟩ := h.entryRow e hem
            have hrne : row.rid ≠ pid := by
              intro hc
              have hei : e.2.1 = (metaKeyOf r, (pid, plc)).2.1 := by
                rw [← h1, hc]
              have hee : e = (metaKeyOf r, (pid, plc)) :=
                List.inj_on_of_nodup_map h.midsND hem hk0mem hei
              exact hene (by rw [hee])
            exact ⟨row, List.mem_append_left _ ((hof row).mpr ⟨hrow, hrne⟩),
              h1, h2, h3⟩
        · rw [hos, hms]
          intro row hrow
          rcases List.mem_append.mp hrow with h1 | h1
          · obtain ⟨hrowm, hrowne⟩ := (hof row).mp h1
            obtain ⟨e, he, a, b, c⟩ := h.rowEntry row hrowm
            have hene : e.1 ≠ metaKeyOf r := by
              intro hc
              have hee : e = (metaKeyOf r, (pid, plc)) :=
                List.inj_on_of_nodup_map h.keysND he hk0mem hc
              exact hrowne (by rw [← a, hee])
            exact ⟨e, List.mem_cons_of_mem _ ((hmf e).mpr ⟨he, hene⟩), a, b, c⟩
          · simp only [List.mem_singleton] at h1
            subst h1
            exact ⟨_, List.mem_cons_self _ _, rfl, rfl, rfl⟩
        · rw [hms]
          intro e he
          rcases List.mem_cons.mp he with he1 | he1
          · subst he1
            have hsm := h.storedMax _ hk0mem
            constructor
            · rw [hcand, if_pos rfl]
              exact List.mem_append_right _ (by simp)
            · intro c hc
              rw [hcand, if_pos rfl] at hc
              rcases List.mem_append.mp hc with hc1 | hc1
              · have hcp : c ≤ plc := hsm.2 c hc1
                show c ≤ lineCountOf r.lyrics
                omega
              · simp only [List.mem_singleton] at hc1
                subst hc1
                exact le_refl _
          · obtain ⟨hem, hene⟩ := (hmf e).mp he1
            rw [hcand, if_neg (fun hc => hene hc.symm), List.append_nil]
            exact h.storedMax e hem
        · rw [hms]
          intro k hk'
          simp only [List.map_cons, List.mem_cons, not_or] at hk'
          obtain ⟨hk1, hk2'⟩ := hk'
          have hknotold : k ∉ s.metaSeen.map (fun e => e.1) := by
            intro hmem
            obtain ⟨e, he, hek⟩ := List.mem_map.mp hmem
            have hene : e.1 ≠ metaKeyOf r := by
              rw [hek]
              exact fun hc => hk1 hc
            exact hk2' (List.mem_map.mpr ⟨e, (hmf e).mpr ⟨he, hene⟩, hek⟩)
          rw [hcand, if_neg (fun hc => hk1 hc.symm), List.append_nil]
          exact h.absentNone k hknotold
        · rw [hms]
          intro e he
          simp only [List.map_append, List.mem_append]
          rcases List.mem_cons.mp he with he1 | he1
          · subst he1
            right
            simp
          · exact Or.inl (h.entryIds e ((hmf e).mp he1).1)
        · rw [hwapp2, hdapp2, hms]
          have := h.counts
          simp only [List.length_cons]
          omega

theorem runInv_all (l : List SourceRecord) :
    (l.map (fun x => x.rid)).Nodup → RunInv l (runStream l) := by
  induction l using List.reverseRecOn with
  | nil => exact fun _ => runInv_nil
  | append_singleton l r ih =>
    intro hids
    rw [List.map_append, List.nodup_append] at hids
    obtain ⟨h1, _, h3⟩ := hids
    have hr : r.rid ∉ l.map (fun x => x.rid) := by
      intro hmem
      exact h3 hmem (by simp)
    exact runInv_step l r hr (ih h1)

/-! ## Counter accounting -/

theorem counterSum_metaStage (s : St) (r : SourceRecord) (lang : Lang)
    (lc : ℕ) : counterSum (metaStage s r lang lc) = counterSum s + 1 := by
  unfold metaStage writeRecord
  cases lookupMeta s.metaSeen (metaKeyOf r) with
  | none => simp [counterSum]; ring
  | some p =>
    obtain ⟨pid, plc⟩ := p
    by_cases hle : lc ≤ plc
    · simp [hle, counterSum]; ring
    · simp [hle, counterSum]; ring

theorem counterSum_step (s : St) (r : SourceRecord) :
    counterSum (processRecord s r) = counterSum s + 1 := by
  by_cases hq : qualityRejected r = true
  · rw [processRecord_quality s r hq]
    simp [counterSum]
    ring
  · have hq' : qualityRejected r = false := by simpa using hq
    cases hl : classify_lang (stripTimeMarkers r.lyrics) with
    | none =>
      rw [processRecord_lang s r hq' hl]
      simp [counterSum]
      ring
    | some lang =>
      cases hfp : lyrics_fingerprint (stripTimeMarkers r.lyrics) with
      | none =>
        rw [processRecord_nofp s r lang hq' hl hfp, counterSum_metaStage]
      | some fp =>
        by_cases hmem : fp ∈ s.fpSeen
        · rw [processRecord_fpdup s r lang fp hq' hl hfp hmem]
          simp [counterSum]
          ring
        · rw [processRecord_fpfresh s r lang fp hq' hl hfp hmem,
            counterSum_metaStage]
          rfl

theorem counterSum_run (l : List SourceRecord) (s : St) :
    counterSum (l.foldl processRecord s) = counterSum s + l.length := by
  induction l generalizing s with
  | nil => simp
  | cons r rest ih =>
    rw [List.foldl_cons, ih, counterSum_step]
    simp only [List.length_cons]
    push_cast
    ring

/-! ## Classifier analysis -/

theorem countJa_cons (c : Char) (t : List Char) :
    countJa (c :: t) = countJa t + (if isJaCp c.toNat then 1 else 0) := by
  simp [countJa, List.countP_cons]

theorem countKo_cons (c : Char) (t : List Char) :
    countKo (c :: t) = countKo t + (if isKoCp c.toNat then 1 else 0) := by
  simp [countKo, List.countP_cons]

theorem countLatin_cons (c : Char) (t : List Char) :
    countLatin (c :: t) = countLatin t + (if isLatinCp c.toNat then 1 else 0) := by
  simp [countLatin, List.countP_cons]

theorem countExcl_cons (c : Char) (t : List Char) :
    countExcl (c :: t) = countExcl t + (if isExclCp c.toNat then 1 else 0) := by
  simp [countExcl, List.countP_cons]

theorem isJa_not_isKo {n : ℕ} (h : isJaCp n = true) : isKoCp n = false := by
  simp only [isJaCp, Bool.or_eq_true, decide_eq_true_eq] at h
  simp only [isKoCp, decide_eq_false_iff_not]
  omega

theorem isJa_not_isLatin {n : ℕ} (h : isJaCp n = true) : isLatinCp n = false := by
  simp only [isJaCp, Bool.or_eq_true, decide_eq_true_eq] at h
  simp only [isLatinCp, Bool.or_eq_false_iff, decide_eq_false_iff_not]
  omega

theorem isJa_not_isExcl {n : ℕ} (h : isJaCp n = true) : isExclCp n = false := by
  simp only [isJaCp, Bool.or_eq_true, decide_eq_true_eq] at h
  simp only [isExclCp, Bool.or_eq_false_iff, decide_eq_false_iff_not]
  omega

theorem isKo_not_isLatin {n : ℕ} (h : isKoCp n = true) : isLatinCp n = false := by
  simp only [isKoCp, decide_eq_true_eq] at h
  simp only [isLatinCp, Bool.or_eq_false_iff, decide_eq_false_iff_not]
  omega

theorem isKo_not_isExcl {n : ℕ} (h : isKoCp n = true) : isExclCp n = false := by
  simp only [isKoCp, decide_eq_true_eq] at h
  simp only [isExclCp, Bool.or_eq_false_iff, decide_eq_false_iff_not]
  omega

theorem isLatin_not_isExcl {n : ℕ} (h : isLatinCp n = true) : isExclCp n = false := by
  simp only [isLatinCp, Bool.or_eq_true, decide_eq_true_eq] at h
  simp only [isExclCp, Bool.or_eq_false_iff, decide_eq_false_iff_not]
  omega

theorem classifyLoop_ja (t : List Char) (ja ko latin excl : ℕ)
    (hja9 : ja ≤ 9) (hja : 10 ≤ ja + countJa t)
    (hko : ko + countKo t ≤ 9) (hex : excl + countExcl t ≤ 50) :
    classifyLoop t ja ko latin excl = some Lang.ja := by
  induction t generalizing ja ko latin excl with
  | nil =>
    simp only [countJa, List.countP_nil] at hja
    omega
  | cons c rest ih =>
    rw [countJa_cons] at hja
    rw [countKo_cons] at hko
    rw [countExcl_cons] at hex
    by_cases h1 : isJaCp c.toNat = true
    · simp [h1] at hja
      simp [isJa_not_isKo h1] at hko
      simp [isJa_not_isExcl h1] at hex
      by_cases h2 : ja + 1 ≥ 10
      · simp only [classifyLoop]
        rw [if_pos h1, if_pos h2]
      · simp only [classifyLoop]
        rw [if_pos h1, if_neg h2]
        exact ih (ja + 1) ko latin excl (by omega) (by omega) (by omega) (by omega)
    · simp [h1] at hja
      by_cases h2 : isKoCp c.toNat = true
      · simp [h2] at hko
        simp [isKo_not_isExcl h2] at hex
        have h3 : ¬ ko + 1 ≥ 10 := by omega
        simp only [classifyLoop]
        rw [if_neg h1, if_pos h2, if_neg h3]
        exact ih ja (ko + 1) latin excl hja9 (by omega) (by omega) (by omega)
      · simp [h2] at hko
        by_cases h3 : isLatinCp c.toNat = true
        · simp [isLatin_not_isExcl h3] at hex
          simp only [classifyLoop]
          rw [if_neg h1, if_neg h2, if_pos h3]
          exact ih ja ko (latin + 1) excl hja9 (by omega) (by omega) (by omega)
        · by_cases h4 : isExclCp c.toNat = true
          · simp [h4] at hex
            have h5 : ¬ excl + 1 > 50 := by omega
            simp only [classifyLoop]
            rw [if_neg h1, if_neg h2, if_neg h3, if_pos h4, if_neg h5]
            exact ih ja ko latin (excl + 1) hja9 (by omega) (by omega) (by omega)
          · simp [h4] at hex
            simp only [classifyLoop]
            rw [if_neg h1, if_neg h2, if_neg h3, if_neg h4]
            exact ih ja ko latin excl hja9 (by omega) (by omega) (by omega)

theorem classifyLoop_ko (t : List Char) (ja ko latin excl : ℕ)
    (hko9 : ko ≤ 9) (hko : 10 ≤ ko + countKo t)
    (hja : ja + countJa t ≤ 9) (hex : excl + countExcl t ≤ 50) :
    classifyLoop t ja ko latin excl = some Lang.ko := by
  induction t generalizing ja ko latin excl with
  | nil =>
    simp only [countKo, List.countP_nil] at hko
    omega
  | cons c rest ih =>
    rw [countJa_cons] at hja
    rw [countKo_cons] at hko
    rw [countExcl_cons] at hex
    by_cases h1 : isJaCp c.toNat = true
    · simp [h1] at hja
      simp [isJa_not_isKo h1] at hko
      simp [isJa_not_isExcl h1] at hex
      have h2 : ¬ ja + 1 ≥ 10 := by omega
      simp only [classifyLoop]
      rw [if_pos h1, if_neg h2]
      exact ih (ja + 1) ko latin excl hko9 (by omega) (by omega) (by omega)
    · simp [h1] at hja
      by_cases h2 : isKoCp c.toNat = true
      · simp [h2] at hko
        simp [isKo_not_isExcl h2] at hex
        by_cases h3 : ko + 1 ≥ 10
        · simp only [classifyLoop]
          rw [if_neg h1, if_pos h2, if_pos h3]
        · simp only [classifyLoop]
          rw [if_neg h1, if_pos h2, if_neg h3]
          exact ih ja (ko + 1) latin excl (by omega) (by omega) (by omega) (by omega)
      · simp [h2] at hko
        by_cases h3 : isLatinCp c.toNat = true
        · simp [isLatin_not_isExcl h3] at hex
          simp only [classifyLoop]
          rw [if_neg h1, if_neg h2, if_pos h3]
          exact ih ja ko (latin + 1) excl hko9 (by omega) (by omega) (by omega)
        · by_cases h4 : isExclCp c.toNat = true
          · simp [h4] at hex
            have h5 : ¬ excl + 1 > 50 := by omega
            simp only [classifyLoop]
            rw [if_neg h1, if_neg h2, if_neg h3, if_pos h4, if_neg h5]
            exact ih ja ko latin (excl + 1) hko9 (by omega) (by omega) (by omega)
          · simp [h4] at hex
            simp only [classifyLoop]
            rw [if_neg h1, if_neg h2, if_neg h3, if_neg h4]
            exact ih ja ko latin excl hko9 (by omega) (by omega) (by omega)

theorem classifyLoop_excl (t : List Char) (ja ko latin excl : ℕ)
    (hex50 : excl ≤ 50) (hex : 51 ≤ excl + countExcl t)
    (hja : ja + countJa t ≤ 9) (hko : ko + countKo t ≤ 9) :
    classifyLoop t ja ko latin excl = none := by
  induction t generalizing ja ko latin excl with
  | nil =>
    simp only [countExcl, List.countP_nil] at hex
    omega
  | cons c rest ih =>
    rw [countJa_cons] at hja
    rw [countKo_cons] at hko
    rw [countExcl_cons] at hex
    by_cases h1 : isJaCp c.toNat = true
    · simp [h1] at hja
      simp [isJa_not_isKo h1] at hko
      simp [isJa_not_isExcl h1] at hex
      have h2 : ¬ ja + 1 ≥ 10 := by omega
      simp only [classifyLoop]
      rw [if_pos h1, if_neg h2]
      exact ih (ja + 1) ko latin excl hex50 (by omega) (by omega) (by omega)
    · simp [h1] at hja
      by_cases h2 : isKoCp c.toNat = true
      · simp [h2] at hko
        simp [isKo_not_isExcl h2] at hex
        have h3 : ¬ ko + 1 ≥ 10 := by omega
        simp only [classifyLoop]
        rw [if_neg h1, if_pos h2, if_neg h3]
        exact ih ja (ko + 1) latin excl hex50 (by omega) (by omega) (by omega)
      · simp [h2] at hko
        by_cases h3 : isLatinCp c.toNat = true
        · simp [isLatin_not_isExcl h3] at hex
          simp only [classifyLoop]
          rw [if_neg h1, if_neg h2, if_pos h3]
          exact ih ja ko (latin + 1) excl hex50 (by omega) (by omega) (by omega)
        · by_cases h4 : isExclCp c.toNat = true
          · simp [h4] at hex
            by_cases h5 : excl + 1 > 50
            · simp only [classifyLoop]
              rw [if_neg h1, if_neg h2, if_neg h3, if_pos h4, if_pos h5]
            · simp only [classifyLoop]
              rw [if_neg h1, if_neg h2, if_neg h3, if_pos h4, if_neg h5]
              exact ih ja ko latin (excl + 1) (by omega) (by omega) (by omega)
                (by omega)
          · simp [h4] at hex
            simp only [classifyLoop]
            rw [if_neg h1, if_neg h2, if_neg h3, if_neg h4]
            exact ih ja ko latin excl hex50 (by omega) (by omega) (by omega)

theorem classifyLoop_full (t : List Char) (ja ko latin excl : ℕ)
    (hja : ja + countJa t ≤ 9) (hko : ko + countKo t ≤ 9)
    (hex : excl + countExcl t ≤ 50) :
    classifyLoop t ja ko latin excl =
      (if 30 ≤ latin + countLatin t then some Lang.en else none) := by
  induction t generalizing ja ko latin excl with
  | nil =>
    simp only [countExcl, List.countP_nil] at hex
    simp only [countLatin, List.countP_nil, Nat.add_zero]
    simp only [classifyLoop]
    rw [if_neg (by omega : ¬ (excl > 50 ∧ excl > latin))]
  | cons c rest ih =>
    rw [countJa_cons] at hja
    rw [countKo_cons] at hko
    rw [countExcl_cons] at hex
    rw [countLatin_cons]
    by_cases h1 : isJaCp c.toNat = true
    · simp [h1] at hja
      simp [isJa_not_isKo h1] at hko
      simp [isJa_not_isLatin h1]
      simp [isJa_not_isExcl h1] at hex
      have h2 : ¬ ja + 1 ≥ 10 := by omega
      simp only [classifyLoop]
      rw [if_pos h1, if_neg h2]
      exact ih (ja + 1) ko latin excl (by omega) (by omega) (by omega)
    · simp [h1] at hja
      by_cases h2 : isKoCp c.toNat = true
      · simp [h2] at hko
        simp [isKo_not_isLatin h2]
        simp [isKo_not_isExcl h2] at hex
        have h3 : ¬ ko + 1 ≥ 10 := by omega
        simp only [classifyLoop]
        rw [if_neg h1, if_pos h2, if_neg h3]
        exact ih ja (ko + 1) latin excl (by omega) (by omega) (by omega)
      · simp [h2] at hko
        by_cases h3 : isLatinCp c.toNat = true
        · simp [h3]
          simp [isLatin_not_isExcl h3] at hex
          simp only [classifyLoop]
          rw [if_neg h1, if_neg h2, if_pos h3]
          rw [ih ja ko (latin + 1) excl (by omega) (by omega) (by omega)]
          have harr : latin + 1 + countLatin rest = latin + (countLatin rest + 1) := by
            omega
          rw [harr]
        · simp [h3]
          by_cases h4 : isExclCp c.toNat = true
          · simp [h4] at hex
            have h5 : ¬ excl + 1 > 50 := by omega
            simp only [classifyLoop]
            rw [if_neg h1, if_neg h2, if_neg h3, if_pos h4, if_neg h5]
            exact ih ja ko latin (excl + 1) (by omega) (by omega) (by omega)
          · simp [h4] at hex
            simp only [classifyLoop]
            rw [if_neg h1, if_neg h2, if_neg h3, if_neg h4]
            exact ih ja ko latin excl (by omega) (by omega) (by omega)

theorem classifyLoop_ne_ja (t : List Char) (ja ko latin excl : ℕ)
    (hja : ja + countJa t ≤ 9) :
    classifyLoop t ja ko latin excl ≠ some Lang.ja := by
  induction t generalizing ja ko latin excl with
  | nil =>
    simp only [classifyLoop]
    split
    · simp
    · split <;> simp
  | cons c rest ih =>
    rw [countJa_cons] at hja
    by_cases h1 : isJaCp c.toNat = true
    · simp [h1] at hja
      have h2 : ¬ ja + 1 ≥ 10 := by omega
      simp only [classifyLoop]
      rw [if_pos h1, if_neg h2]
      exact ih (ja + 1) ko latin excl (by omega)
    · simp [h1] at hja
      by_cases h2 : isKoCp c.toNat = true
      · by_cases h3 : ko + 1 ≥ 10
        · simp only [classifyLoop]
          rw [if_neg h1, if_pos h2, if_pos h3]
          simp
        · simp only [classifyLoop]
          rw [if_neg h1, if_pos h2, if_neg h3]
          exact ih ja (ko + 1) latin excl (by omega)
      · by_cases h3 : isLatinCp c.toNat = true
        · simp only [classifyLoop]
          rw [if_neg h1, if_neg h2, if_pos h3]
          exact ih ja ko (latin + 1) excl (by omega)
        · by_cases h4 : isExclCp c.toNat = true
          · by_cases h5 : excl + 1 > 50
            · simp only [classifyLoop]
              rw [if_neg h1, if_neg h2, if_neg h3, if_pos h4, if_pos h5]
              simp
            · simp only [classifyLoop]
              rw [if_neg h1, if_neg h2, if_neg h3, if_pos h4, if_neg h5]
              exact ih ja ko latin (excl + 1) (by omega)
          · simp only [classifyLoop]
            rw [if_neg h1, if_neg h2, if_neg h3, if_neg h4]
            exact ih ja ko latin excl (by omega)

/-! ## Fingerprint-index monotonicity -/

theorem metaStage_fpSeen (s : St) (r : SourceRecord) (lang : Lang) (lc : ℕ) :
    (metaStage s r lang lc).fpSeen = s.fpSeen := by
  unfold metaStage writeRecord
  cases lookupMeta s.metaSeen (metaKeyOf r) with
  | none => rfl
  | some p =>
    obtain ⟨pid, plc⟩ := p
    by_cases hle : lc ≤ plc <;> simp [hle]

theorem metaStage_statsFp (s : St) (r : SourceRecord) (lang : Lang) (lc : ℕ) :
    (metaStage s r lang lc).statsFp = s.statsFp := by
  unfold metaStage writeRecord
  cases lookupMeta s.metaSeen (metaKeyOf r) with
  | none => rfl
  | some p =>
    obtain ⟨pid, plc⟩ := p
    by_cases hle : lc ≤ plc <;> simp [hle]

theorem fpSeen_mono (s : St) (r : SourceRecord) {d : List ℕ}
    (hd : d ∈ s.fpSeen) : d ∈ (processRecord s r).fpSeen := by
  by_cases hq : qualityRejected r = true
  · rw [processRecord_quality s r hq]
    exact hd
  · have hq' : qualityRejected r = false := by simpa using hq
    cases hl : classify_lang (stripTimeMarkers r.lyrics) with
    | none =>
      rw [processRecord_lang s r hq' hl]
      exact hd
    | some lang =>
      cases hfp : lyrics_fingerprint (stripTimeMarkers r.lyrics) with
      | none =>
        rw [processRecord_nofp s r lang hq' hl hfp, metaStage_fpSeen]
        exact hd
      | some fp =>
        by_cases hmem : fp ∈ s.fpSeen
        · rw [processRecord_fpdup s r lang fp hq' hl hfp hmem]
          exact hd
        · rw [processRecord_fpfresh s r lang fp hq' hl hfp hmem, metaStage_fpSeen]
          exact List.mem_cons_of_mem _ hd

theorem fpSeen_mono_run (s : St) (l : List SourceRecord) {d : List ℕ}
    (hd : d ∈ s.fpSeen) : d ∈ (l.foldl processRecord s).fpSeen := by
  induction l generalizing s with
  | nil => exact hd
  | cons r rest ih => exact ih _ (fpSeen_mono s r hd)

theorem fpSeen_insert (s : St) (r : SourceRecord) {d : List ℕ}
    (hq : qualityRejected r = false)
    (hl : (classify_lang (stripTimeMarkers r.lyrics)).isSome = true)
    (hfp : lyrics_fingerprint (stripTimeMarkers r.lyrics) = some d) :
    d ∈ (processRecord s r).fpSeen := by
  obtain ⟨lang, hlang⟩ := Option.isSome_iff_exists.mp hl
  by_cases hmem : d ∈ s.fpSeen
  · exact fpSeen_mono s r hmem
  · rw [processRecord_fpfresh s r lang d hq hlang hfp hmem, metaStage_fpSeen]
    exact List.mem_cons_self _ _

end LrcFilter

namespace LrcFilter

/-! ## The claims -/

/-- Claim C4: the duration bucket equals the duration in seconds divided by
10 and rounded to the nearest integer, with a missing duration treated as 0;
in particular durations 186 and 194 both bucket to 19, while 184 buckets to
18 and 196 buckets to 20. -/
theorem c4_duration_bucket :
    durBucket (some 186) = 19 ∧ durBucket (some 194) = 19 ∧
    durBucket (some 184) = 18 ∧ durBucket (some 196) = 20 ∧
    durBucket none = 0 ∧
    ∀ q : ℚ, 0 ≤ q → durBucket (some q) = round (q / 10) := by
  refine ⟨?_, ?_, ?_, ?_, ?_, ?_⟩
  · norm_num [durBucket, roundHalfAway, Rat.floor_def]
  · norm_num [durBucket, roundHalfAway, Rat.floor_def]
  · norm_num [durBucket, roundHalfAway, Rat.floor_def]
  · norm_num [durBucket, roundHalfAway, Rat.floor_def]
  · norm_num [durBucket, roundHalfAway, Rat.floor_def]
  · intro q hq
    have h10 : (0 : ℚ) ≤ q / 10 := by positivity
    show roundHalfAway ((some q).getD 0 / 10) = _
    simp only [Option.getD_some]
    rw [roundHalfAway, round_eq, if_pos h10]

theorem c4_duration_bucket_witness :
    (0 : ℚ) ≤ 186 ∧ durBucket (some 186) = round ((186 : ℚ) / 10) :=
  ⟨by norm_num, c4_duration_bucket.2.2.2.2.2 186 (by norm_num)⟩

/-- Claim C5: a text passing the 30-byte length floor with exactly 10
Japanese-script characters, while below the Korean (10), Latin (30) and
excluded (more than 50) thresholds, classifies as Japanese; a text with only
9 Japanese-script characters never classifies as Japanese. -/
theorem c5_ja_boundary :
    (∀ t : List Char, 30 ≤ utf8Len t → countJa t = 10 → countKo t < 10 →
      countLatin t < 30 → countExcl t ≤ 50 →
      classify_lang t = some Lang.ja) ∧
    (∀ t : List Char, countJa t = 9 → classify_lang t ≠ some Lang.ja) := by
  constructor
  · intro t hlen hja hko hlat hex
    unfold classify_lang
    rw [if_neg (by omega)]
    exact classifyLoop_ja t 0 0 0 0 (by omega) (by omega) (by omega) (by omega)
  · intro t hja
    unfold classify_lang
    by_cases hlen : utf8Len t < 30
    · rw [if_pos hlen]
      simp
    · rw [if_neg hlen]
      exact classifyLoop_ne_ja t 0 0 0 0 (by omega)

theorem c5_ja_boundary_witness :
    (30 ≤ utf8Len c5Text10 ∧ countJa c5Text10 = 10 ∧ countKo c5Text10 < 10 ∧
      countLatin c5Text10 < 30 ∧ countExcl c5Text10 ≤ 50 ∧
      classify_lang c5Text10 = some Lang.ja) ∧
    (countJa c5Text9 = 9 ∧ classify_lang c5Text9 ≠ some Lang.ja) :=
  ⟨⟨by decide, by decide, by decide, by decide, by decide,
    c5_ja_boundary.1 c5Text10 (by decide) (by decide) (by decide) (by decide)
      (by decide)⟩,
   by decide,
   c5_ja_boundary.2 c5Text9 (by decide)⟩

/-- Claim C2, counterexample: the early-exit classifier does not return the
same result as the full-scan variant on every text — on ten Hangul followed
by ten hiragana the early exit fires on the Korean threshold first, while
the post-scan comparisons consult the Japanese counter first.  No post-scan
comparison order can agree with the early exit on both orderings of this
text, as both orderings have the same four counter totals. -/
theorem c2_counterexample : ¬ classify_lang c2Text = classifyLangFull c2Text := by
  decide

/-- Claim C2, amended: the early-exit classifier agrees with the full-scan
variant on every text in which at most one of the three early-exit
thresholds (Japanese ≥ 10, Korean ≥ 10, excluded > 50) is reached by the
full-scan totals. -/
theorem c2_classifier_refinement (t : List Char)
    (h1 : ¬ (10 ≤ countJa t ∧ 10 ≤ countKo t))
    (h2 : ¬ (10 ≤ countJa t ∧ 50 < countExcl t))
    (h3 : ¬ (10 ≤ countKo t ∧ 50 < countExcl t)) :
    classify_lang t = classifyLangFull t := by
  unfold classify_lang classifyLangFull
  by_cases hlen : utf8Len t < 30
  · rw [if_pos hlen, if_pos hlen]
  · rw [if_neg hlen, if_neg hlen]
    by_cases hja : 10 ≤ countJa t
    · rw [if_pos hja]
      exact classifyLoop_ja t 0 0 0 0 (by omega) (by omega) (by omega) (by omega)
    · rw [if_neg hja]
      by_cases hko : 10 ≤ countKo t
      · rw [if_pos hko]
        exact classifyLoop_ko t 0 0 0 0 (by omega) (by omega) (by omega) (by omega)
      · rw [if_neg hko]
        by_cases hex : 50 < countExcl t
        · rw [if_pos hex]
          exact classifyLoop_excl t 0 0 0 0 (by omega) (by omega) (by omega)
            (by omega)
        · rw [if_neg hex]
          rw [classifyLoop_full t 0 0 0 0 (by omega) (by omega) (by omega)]
          simp only [Nat.zero_add]

theorem c2_classifier_refinement_witness :
    (¬ (10 ≤ countJa c2WText ∧ 10 ≤ countKo c2WText)) ∧
    (¬ (10 ≤ countJa c2WText ∧ 50 < countExcl c2WText)) ∧
    (¬ (10 ≤ countKo c2WText ∧ 50 < countExcl c2WText)) ∧
    classify_lang c2WText = classifyLangFull c2WText :=
  ⟨by decide, by decide, by decide,
   c2_classifier_refinement c2WText (by decide) (by decide) (by decide)⟩

/-- Claim C6: every record with fewer than 10 newline-separated lines, or
whose trimmed time-marker-stripped text is below the 100-byte floor, only
increments the quality-rejected counter: no later stage processes it and it
is never written to the output store (the resulting state is unchanged in
every other component). -/
theorem c6_quality_gate (s : St) (r : SourceRecord)
    (h : lineCountOf r.lyrics < 10 ∨
      utf8Len (trimChars (stripTimeMarkers r.lyrics)) < 100) :
    processRecord s r = { s with statsQuality := s.statsQuality + 1 } :=
  processRecord_quality s r (by simpa [qualityRejected] using h)

theorem c6_quality_gate_witness :
    (lineCountOf c6Rec.lyrics < 10 ∨
      utf8Len (trimChars (stripTimeMarkers c6Rec.lyrics)) < 100) ∧
    processRecord initSt c6Rec = { initSt with statsQuality := initSt.statsQuality + 1 } :=
  ⟨Or.inl (by decide), c6_quality_gate initSt c6Rec (Or.inl (by decide))⟩

/-- Claim C9: processing any stream makes the sum of the five run counters
equal the number of records processed — every record changes the sum by
exactly one, the supersession path netting to zero on `kept` (decrement then
increment) while the metadata counter gains one. -/
theorem c9_counter_conservation :
    (∀ (s : St) (r : SourceRecord),
      counterSum (processRecord s r) = counterSum s + 1) ∧
    (∀ l : List SourceRecord, counterSum (runStream l) = l.length) := by
  refine ⟨counterSum_step, fun l => ?_⟩
  unfold runStream
  rw [counterSum_run]
  simp [initSt, counterSum]

set_option maxRecDepth 20000

/-- Claim C3: for two distinct records with byte-identical nonempty
fingerprint-normalized lyric text that both pass the quality gate and the
classifier, the shared digest is in the fingerprint index once the first has
been processed and stays there for the rest of the run, and processing the
second — whatever its metadata — only increments the content-duplicate
counter: it is dropped before the metadata stage. -/
theorem c3_content_dedup (A B : SourceRecord) (pre mid post : List SourceRecord)
    (hQA : qualityRejected A = false)
    (hLA : (classify_lang (stripTimeMarkers A.lyrics)).isSome = true)
    (hQB : qualityRejected B = false)
    (hLB : (classify_lang (stripTimeMarkers B.lyrics)).isSome = true)
    (heqn : fpNormalize (stripTimeMarkers A.lyrics) =
      fpNormalize (stripTimeMarkers B.lyrics))
    (hne : fpNormalize (stripTimeMarkers A.lyrics) ≠ []) :
    ∃ d, lyrics_fingerprint (stripTimeMarkers A.lyrics) = some d ∧
      lyrics_fingerprint (stripTimeMarkers B.lyrics) = some d ∧
      d ∈ (runStream (pre ++ [A])).fpSeen ∧
      d ∈ (runStream ((pre ++ [A]) ++ mid)).fpSeen ∧
      processRecord (runStream ((pre ++ [A]) ++ mid)) B =
        { runStream ((pre ++ [A]) ++ mid) with
          statsFp := (runStream ((pre ++ [A]) ++ mid)).statsFp + 1 } ∧
      d ∈ (runStream ((((pre ++ [A]) ++ mid) ++ [B]) ++ post)).fpSeen := by
  refine ⟨md5Bytes (utf8Encode (fpNormalize (stripTimeMarkers A.lyrics))),
    ?_, ?_, ?_, ?_, ?_, ?_⟩
  case _ =>
    simp only [lyrics_fingerprint]
    rw [if_neg hne]
  case _ =>
    simp only [lyrics_fingerprint]
    rw [← heqn, if_neg hne]
  case _ =>
    rw [runStream_snoc]
    exact fpSeen_insert _ A hQA hLA (by simp only [lyrics_fingerprint]; rw [if_neg hne])
  case _ =>
    rw [runStream_append]
    refine fpSeen_mono_run _ mid ?_
    rw [runStream_snoc]
    exact fpSeen_insert _ A hQA hLA (by simp only [lyrics_fingerprint]; rw [if_neg hne])
  case _ =>
    obtain ⟨langB, hlangB⟩ := Option.isSome_iff_exists.mp hLB
    refine processRecord_fpdup _ B langB
      (md5Bytes (utf8Encode (fpNormalize (stripTimeMarkers A.lyrics))))
      hQB hlangB ?_ ?_
    · simp only [lyrics_fingerprint]
      rw [← heqn, if_neg hne]
    · rw [runStream_append]
      refine fpSeen_mono_run _ mid ?_
      rw [runStream_snoc]
      exact fpSeen_insert _ A hQA hLA
        (by simp only [lyrics_fingerprint]; rw [if_neg hne])
  case _ =>
    rw [runStream_append]
    refine fpSeen_mono_run _ post ?_
    rw [runStream_snoc]
    refine fpSeen_mono _ B ?_
    rw [runStream_append]
    refine fpSeen_mono_run _ mid ?_
    rw [runStream_snoc]
    exact fpSeen_insert _ A hQA hLA (by simp only [lyrics_fingerprint]; rw [if_neg hne])

theorem c3_content_dedup_witness :
    qualityRejected c3RecA = false ∧
    (classify_lang (stripTimeMarkers c3RecA.lyrics)).isSome = true ∧
    qualityRejected c3RecB = false ∧
    (classify_lang (stripTimeMarkers c3RecB.lyrics)).isSome = true ∧
    fpNormalize (stripTimeMarkers c3RecA.lyrics) =
      fpNormalize (stripTimeMarkers c3RecB.lyrics) ∧
    fpNormalize (stripTimeMarkers c3RecA.lyrics) ≠ [] ∧
    (∃ d, lyrics_fingerprint (stripTimeMarkers c3RecA.lyrics) = some d ∧
      lyrics_fingerprint (stripTimeMarkers c3RecB.lyrics) = some d ∧
      d ∈ (runStream ([] ++ [c3RecA])).fpSeen ∧
      d ∈ (runStream (([] ++ [c3RecA]) ++ [])).fpSeen ∧
      processRecord (runStream (([] ++ [c3RecA]) ++ [])) c3RecB =
        { runStream (([] ++ [c3RecA]) ++ []) with
          statsFp := (runStream (([] ++ [c3RecA]) ++ [])).statsFp + 1 } ∧
      d ∈ (runStream (((([] ++ [c3RecA]) ++ []) ++ [c3RecB]) ++ [])).fpSeen) :=
  ⟨by decide, by decide, by decide, by decide, by decide, by decide,
   c3_content_dedup c3RecA c3RecB [] [] [] (by decide) (by decide) (by decide)
     (by decide) (by decide) (by decide)⟩

/-- Claim C7: when the fingerprint normalization of a record that reaches
the content stage is empty, no fingerprint is produced, the content-
duplicate counter and the fingerprint index are untouched, and the record
proceeds to the metadata-dedup stage; this is not an error (the step is a
total function). -/
theorem c7_empty_normalization (s : St) (r : SourceRecord) (lang : Lang)
    (hq : qualityRejected r = false)
    (hl : classify_lang (stripTimeMarkers r.lyrics) = some lang)
    (hfp : fpNormalize (stripTimeMarkers r.lyrics) = []) :
    lyrics_fingerprint (stripTimeMarkers r.lyrics) = none ∧
    (processRecord s r).fpSeen = s.fpSeen ∧
    (processRecord s r).statsFp = s.statsFp ∧
    processRecord s r = metaStage s r lang (lineCountOf r.lyrics) := by
  have hnone : lyrics_fingerprint (stripTimeMarkers r.lyrics) = none := by
    simp only [lyrics_fingerprint]
    rw [if_pos hfp]
  have hstep := processRecord_nofp s r lang hq hl hnone
  refine ⟨hnone, ?_, ?_, hstep⟩
  · rw [hstep, metaStage_fpSeen]
  · rw [hstep, metaStage_statsFp]

theorem c7_empty_normalization_witness :
    qualityRejected c7Rec = false ∧
    classify_lang (stripTimeMarkers c7Rec.lyrics) = some Lang.en ∧
    fpNormalize (stripTimeMarkers c7Rec.lyrics) = [] ∧
    (lyrics_fingerprint (stripTimeMarkers c7Rec.lyrics) = none ∧
     (processRecord initSt c7Rec).fpSeen = initSt.fpSeen ∧
     (processRecord initSt c7Rec).statsFp = initSt.statsFp ∧
     processRecord initSt c7Rec =
       metaStage initSt c7Rec Lang.en (lineCountOf c7Rec.lyrics)) :=
  ⟨by decide, by decide, by decide,
   c7_empty_normalization initSt c7Rec Lang.en (by decide) (by decide) (by decide)⟩

/-- Claim C8: when the metadata identity key is present with a stored line
count at least the candidate's, the metadata stage's only state change is
incrementing the metadata-duplicate counter — the metadata index entry, the
fingerprint index, the kept counter and the output store are unchanged by
the stage and the candidate is not written; at the whole-step level the
metadata index, output store, kept counter are likewise unchanged and the
metadata counter gains exactly one. -/
theorem c8_reject_frame (s : St) (r : SourceRecord) (lang : Lang)
    (pid : ℤ) (plc : ℕ)
    (hq : qualityRejected r = false)
    (hl : classify_lang (stripTimeMarkers r.lyrics) = some lang)
    (hfpn : ∀ d, lyrics_fingerprint (stripTimeMarkers r.lyrics) = some d →
      d ∉ s.fpSeen)
    (hlk : lookupMeta s.metaSeen (metaKeyOf r) = some (pid, plc))
    (hle : lineCountOf r.lyrics ≤ plc) :
    metaStage s r lang (lineCountOf r.lyrics) =
      { s with statsMeta := s.statsMeta + 1 } ∧
    (processRecord s r).metaSeen = s.metaSeen ∧
    (processRecord s r).output = s.output ∧
    (processRecord s r).statsKept = s.statsKept ∧
    (processRecord s r).statsMeta = s.statsMeta + 1 := by
  have hstage := metaStage_reject s r lang _ pid plc hlk hle
  refine ⟨hstage, ?_⟩
  cases hfp : lyrics_fingerprint (stripTimeMarkers r.lyrics) with
  | none =>
    have hstep := processRecord_nofp s r lang hq hl hfp
    rw [hstep, hstage]
    exact ⟨rfl, rfl, rfl, rfl⟩
  | some d =>
    have hmem := hfpn d hfp
    have hstep := processRecord_fpfresh s r lang d hq hl hfp hmem
    have hstage2 := metaStage_reject { s with fpSeen := d :: s.fpSeen } r lang
      (lineCountOf r.lyrics) pid plc hlk hle
    rw [hstep, hstage2]
    exact ⟨rfl, rfl, rfl, rfl⟩

theorem c8_reject_frame_witness :
    qualityRejected c7Rec = false ∧
    classify_lang (stripTimeMarkers c7Rec.lyrics) = some Lang.en ∧
    (∀ d, lyrics_fingerprint (stripTimeMarkers c7Rec.lyrics) = some d →
      d ∉ c8St.fpSeen) ∧
    lookupMeta c8St.metaSeen (metaKeyOf c7Rec) = some (5, 50) ∧
    lineCountOf c7Rec.lyrics ≤ 50 ∧
    (metaStage c8St c7Rec Lang.en (lineCountOf c7Rec.lyrics) =
      { c8St with statsMeta := c8St.statsMeta + 1 } ∧
     (processRecord c8St c7Rec).metaSeen = c8St.metaSeen ∧
     (processRecord c8St c7Rec).output = c8St.output ∧
     (processRecord c8St c7Rec).statsKept = c8St.statsKept ∧
     (processRecord c8St c7Rec).statsMeta = c8St.statsMeta + 1) :=
  ⟨by decide, by decide,
   fun d hd => by
     rw [show lyrics_fingerprint (stripTimeMarkers c7Rec.lyrics) = none from
       by decide] at hd
     exact absurd hd (by simp),
   by simp [c8St, lookupMeta],
   by decide,
   c8_reject_frame c8St c7Rec Lang.en 5 50 (by decide) (by decide)
     (fun d hd => by
       rw [show lyrics_fingerprint (stripTimeMarkers c7Rec.lyrics) = none from
         by decide] at hd
       exact absurd hd (by simp))
     (by simp [c8St, lookupMeta]) (by decide)⟩

/-- Claim C1: for every input stream (with its pairwise distinct external
ids), the end state of the run has at most one output record per metadata
identity key, and every output record's line count is the maximum among all
candidates sharing its key that reached the metadata-dedup stage. -/
theorem c1_meta_identity (l : List SourceRecord)
    (hids : (l.map (fun x => x.rid)).Nodup) :
    (∀ k, (((runStream l).output.filter (fun row => rowKey row == k)).length ≤ 1)) ∧
    (∀ row ∈ (runStream l).output,
      rowLineCount row ∈ candLines l (rowKey row) ∧
      ∀ c ∈ candLines l (rowKey row), c ≤ rowLineCount row) := by
  have h := runInv_all l hids
  constructor
  · intro k
    exact filter_eq_length_le_one rowKey _ h.okeysND k
  · intro row hrow
    obtain ⟨e, he, h1, h2, h3⟩ := h.rowEntry row hrow
    have hsm := h.storedMax e he
    rw [h2, h3] at hsm
    exact hsm

theorem c1_meta_identity_witness :
    (([c3RecA].map (fun x => x.rid)).Nodup) ∧
    ((∀ k, (((runStream [c3RecA]).output.filter
        (fun row => rowKey row == k)).length ≤ 1)) ∧
     (∀ row ∈ (runStream [c3RecA]).output,
       rowLineCount row ∈ candLines [c3RecA] (rowKey row) ∧
       ∀ c ∈ candLines [c3RecA] (rowKey row), c ≤ rowLineCount row)) :=
  ⟨by decide, c1_meta_identity [c3RecA] (by decide)⟩

/-- Claim C10: after processing any stream (with pairwise distinct external
ids), the kept counter equals the number of metadata-index entries, which
equals the number of output rows, and the INSERT count equals that number
plus the DELETE count — each acceptance adds one entry and one row, each
supersession replaces an entry and deletes exactly the superseded row. -/
theorem c10_kept_accounting (l : List SourceRecord)
    (hids : (l.map (fun x => x.rid)).Nodup) :
    (runStream l).statsKept = ((runStream l).metaSeen.length : ℤ) ∧
    (runStream l).output.length = (runStream l).metaSeen.length ∧
    writesOf initSt l = (runStream l).metaSeen.length + deletesOf initSt l := by
  have h := runInv_all l hids
  exact ⟨h.kept, h.olen, h.counts⟩

theorem c10_kept_accounting_witness :
    (([c3RecB].map (fun x => x.rid)).Nodup) ∧
    ((runStream [c3RecB]).statsKept = ((runStream [c3RecB]).metaSeen.length : ℤ) ∧
     (runStream [c3RecB]).output.length = (runStream [c3RecB]).metaSeen.length ∧
     writesOf initSt [c3RecB] =
       (runStream [c3RecB]).metaSeen.length + deletesOf initSt [c3RecB]) :=
  ⟨by decide, c10_kept_accounting [c3RecB] (by decide)⟩

end LrcFilter
